import Mathlib

/-!
Formal model of the image post-processing and scoring utilities of
`src/helper.py` (DSB2018 nucleus segmentation): run-length encoding,
connected-component labeling, small-object removal, nucleus size
estimation, the multi-threshold IoU metric, and the jitter used by the
watershed splitter.

Modeling conventions: machine floats are modeled by exact rationals
(`ℚ`); the float NaN produced by the mean of an empty slice is modeled
by `Option.none`; the random jitter draw of `seg_ws` is modeled through
its per-pixel probability law as a measure on `ℝ`.
-/

namespace DSB

/-- Pixel coordinates of an `h × w` image. -/
abbrev Pix (h w : ℕ) := Fin h × Fin w

/-- An integer-valued image (label images; binary masks are 0/1 valued). -/
abbrev Img (h w : ℕ) := Fin h → Fin w → ℕ

/-- A rational-valued image (probability maps, with float values modeled exactly). -/
abbrev QImg (h w : ℕ) := Fin h → Fin w → ℚ

variable {h w : ℕ}

/-- Column-major flat index of a pixel, as produced by `y.T.flatten()` in
`rle_encoding`: pixel `(i, j)` lands at flat position `j * h + i`. -/
def colIdx (p : Pix h w) : ℕ := p.2.val * h + p.1.val

theorem colIdx_lt (p : Pix h w) : colIdx p < w * h := by
  rcases p with ⟨i, j⟩
  have hi : i.val < h := i.isLt
  have hj : j.val + 1 ≤ w := j.isLt
  calc j.val * h + i.val < j.val * h + h := by omega
    _ = (j.val + 1) * h := by ring
    _ ≤ w * h := Nat.mul_le_mul_right h hj

/-- Pixel of a column-major flat index. -/
def colPix (n : Fin (w * h)) : Pix h w :=
  have hh : 0 < h := by
    rcases Nat.eq_zero_or_pos h with h0 | h0
    · exact absurd n.isLt (by simp [h0])
    · exact h0
  (⟨n.val % h, Nat.mod_lt _ hh⟩, ⟨n.val / h, (Nat.div_lt_iff_lt_mul hh).mpr n.isLt⟩)

theorem colIdx_colPix (n : Fin (w * h)) : colIdx (colPix n) = n.val := by
  show n.val / h * h + n.val % h = n.val
  rw [Nat.mul_comm]
  exact Nat.div_add_mod n.val h

theorem colPix_colIdx (p : Pix h w) : colPix ⟨colIdx p, colIdx_lt p⟩ = p := by
  rcases p with ⟨i, j⟩
  have hi : i.val < h := i.isLt
  apply Prod.ext
  · apply Fin.ext
    show (j.val * h + i.val) % h = i.val
    rw [Nat.mul_comm, Nat.mul_add_mod]
    exact Nat.mod_eq_of_lt hi
  · apply Fin.ext
    show (j.val * h + i.val) / h = j.val
    have hh : 0 < h := Nat.lt_of_le_of_lt (Nat.zero_le _) hi
    rw [Nat.mul_comm, Nat.mul_add_div hh, Nat.div_eq_of_lt hi]
    omega

/-- Column-major flattening of an image, mirroring `y.T.flatten()`. -/
def flattenCM (img : Img h w) : List ℕ :=
  List.ofFn (fun n : Fin (w * h) => img (colPix n).1 (colPix n).2)

theorem length_flattenCM (img : Img h w) : (flattenCM img).length = w * h := by
  simp [flattenCM]

theorem getD_flattenCM (img : Img h w) (n : Fin (w * h)) :
    (flattenCM img).getD n.val 0 = img (colPix n).1 (colPix n).2 := by
  rw [List.getD_eq_getElem?_getD]
  have hn : n.val < (flattenCM img).length := by
    rw [length_flattenCM]; exact n.isLt
  rw [List.getElem?_eq_getElem hn]
  simp [flattenCM]

theorem getD_flattenCM_colIdx (img : Img h w) (p : Pix h w) :
    (flattenCM img).getD (colIdx p) 0 = img p.1 p.2 := by
  have := getD_flattenCM img ⟨colIdx p, colIdx_lt p⟩
  rw [colPix_colIdx] at this
  exact this

/-! ### Run-length encoding (`rle_encoding`, helper.py lines 117-125)

The source flattens `y.T`, takes the positions where the value equals 1
(`np.where(y.T.flatten() == 1)[0]`), and builds a flat list of
alternating 1-based starts and run lengths. -/

/-- Positions (0-based, flat order) whose value equals 1, as computed by
`np.where(flat == 1)[0]`. -/
def dotsOf (flat : List ℕ) : List ℕ :=
  (List.range flat.length).filter (fun i => flat.getD i 0 = 1)

/-- The loop of `rle_encoding`: `racc` is the flat run list built so far,
in reverse order (so that incrementing the Python list's last element is
incrementing the head).  The `[]` fallthrough branch is unreachable from
`rle_encoding` (the first dot always opens a run before the increment). -/
def rleAux : List ℕ → ℤ → List ℕ → List ℕ
  | [], _, racc => racc.reverse
  | b :: rest, prev, racc =>
    let racc1 := if prev + 1 < (b : ℤ) then 0 :: (b + 1) :: racc else racc
    match racc1 with
    | [] => rleAux rest (b : ℤ) []
    | x :: t => rleAux rest (b : ℤ) ((x + 1) :: t)

/-- Run-length encoding of a flat list: the flat alternating
(1-based start, length) list returned by `rle_encoding`. -/
def rle_encoding (flat : List ℕ) : List ℕ := rleAux (dotsOf flat) (-2) []

/-- Reads a flat run-length list as consecutive (start, length) pairs. -/
def toPairs : List ℕ → List (ℕ × ℕ)
  | s :: l :: rest => (s, l) :: toPairs rest
  | _ => []

/-- Flattens (start, length) pairs back into the alternating flat form. -/
def flattenPairs : List (ℕ × ℕ) → List ℕ
  | [] => []
  | r :: rest => r.1 :: r.2 :: flattenPairs rest

theorem toPairs_flattenPairs (l : List (ℕ × ℕ)) : toPairs (flattenPairs l) = l := by
  induction l with
  | nil => rfl
  | cons r rest ih => simp [flattenPairs, toPairs, ih]

/-- Maximal runs, as (0-based start, length) pairs, of a strictly
increasing position list, with a currently open run from `s` of length `l`. -/
def runsFrom : List ℕ → ℕ → ℕ → List (ℕ × ℕ)
  | [], s, l => [(s, l)]
  | b :: rest, s, l =>
    if b = s + l then runsFrom rest s (l + 1) else (s, l) :: runsFrom rest b 1

/-- Maximal runs of a strictly increasing position list. -/
def runsOf : List ℕ → List (ℕ × ℕ)
  | [] => []
  | b :: rest => runsFrom rest b 1

/-- The (1-based start, length) pairs encoded by `rle_encoding`. -/
def pairsOf (flat : List ℕ) : List (ℕ × ℕ) :=
  (runsOf (dotsOf flat)).map (fun r => (r.1 + 1, r.2))

/-- Pair `(start, len)` with 1-based `start` covers the 0-based flat
position `i` exactly when `start ≤ i + 1 < start + len`. -/
def coversPix (r : ℕ × ℕ) (i : ℕ) : Prop := r.1 ≤ i + 1 ∧ i + 1 < r.1 + r.2

instance (r : ℕ × ℕ) (i : ℕ) : Decidable (coversPix r i) := by
  unfold coversPix; infer_instance

/-- Position `i` is covered by some pair of the flat encoding `rle`. -/
def coversAt (rle : List ℕ) (i : ℕ) : Prop := ∃ r ∈ toPairs rle, coversPix r i

instance (rle : List ℕ) (i : ℕ) : Decidable (coversAt rle i) := by
  unfold coversAt; exact List.decidableBEx _ _

theorem rleAux_eq_runsFrom :
    ∀ (dots : List ℕ) (s l : ℕ) (racc : List ℕ), 1 ≤ l →
    List.Chain (· < ·) (s + l - 1) dots →
    rleAux dots ((s : ℤ) + (l : ℤ) - 1) (l :: (s + 1) :: racc) =
      racc.reverse ++ flattenPairs ((runsFrom dots s l).map (fun r => (r.1 + 1, r.2))) := by
  intro dots
  induction dots with
  | nil =>
    intro s l racc _ _
    simp [rleAux, runsFrom, flattenPairs]
  | cons b rest ih =>
    intro s l racc hl hch
    rw [List.chain_cons] at hch
    obtain ⟨hb1, hch'⟩ := hch
    have hble : s + l ≤ b := by omega
    by_cases hb : s + l < b
    · have hcond : ((s : ℤ) + (l : ℤ) - 1) + 1 < (b : ℤ) := by omega
      have hne : b ≠ s + l := by omega
      rw [rleAux]
      simp only [if_pos hcond]
      have : rleAux rest (b : ℤ) ((0 + 1) :: (b + 1) :: l :: (s + 1) :: racc) =
          (l :: (s + 1) :: racc).reverse ++
            flattenPairs ((runsFrom rest b 1).map (fun r => (r.1 + 1, r.2))) := by
        have hprev : ((b : ℤ)) = (b : ℤ) + (1 : ℤ) - 1 := by ring
        have hch2 : List.Chain (· < ·) (b + 1 - 1) rest := by
          simpa using hch'
        have := ih b 1 (l :: (s + 1) :: racc) (le_refl 1) hch2
        rw [hprev]
        simpa using this
      rw [this]
      rw [runsFrom, if_neg hne]
      simp [flattenPairs]
    · have hbeq : b = s + l := by omega
      have hcond : ¬ (((s : ℤ) + (l : ℤ) - 1) + 1 < (b : ℤ)) := by omega
      rw [rleAux]
      simp only [if_neg hcond]
      have hch2 : List.Chain (· < ·) (s + (l + 1) - 1) rest := by
        rw [hbeq] at hch'
        have : s + (l + 1) - 1 = s + l := by omega
        rw [this]
        exact hch'
      have hprev : ((b : ℤ)) = (s : ℤ) + ((l : ℤ) + 1) - 1 := by rw [hbeq]; push_cast; ring
      have := ih s (l + 1) racc (by omega) hch2
      rw [runsFrom, if_pos hbeq]
      rw [hprev]
      simpa using this

theorem rle_encoding_eq_pairs (flat : List ℕ) :
    rle_encoding flat = flattenPairs (pairsOf flat) := by
  have hpw : (dotsOf flat).Pairwise (· < ·) := by
    exact (List.pairwise_lt_range _).filter _
  rw [rle_encoding, pairsOf]
  cases hd : dotsOf flat with
  | nil => simp [rleAux, runsOf, flattenPairs]
  | cons b rest =>
    rw [hd] at hpw
    have hch : List.Chain (· < ·) (b + 1 - 1) rest := by
      have : List.Chain (· < ·) b rest := List.chain_iff_pairwise.mpr hpw
      simpa using this
    have hcond : (-2 : ℤ) + 1 < (b : ℤ) := by
      have : (0 : ℤ) ≤ (b : ℤ) := Int.natCast_nonneg b
      omega
    rw [rleAux]
    simp only [if_pos hcond]
    have hprev : ((b : ℤ)) = (b : ℤ) + (1 : ℤ) - 1 := by ring
    have := rleAux_eq_runsFrom rest b 1 [] (le_refl 1) hch
    rw [hprev]
    simp only [runsOf]
    simpa using this

theorem toPairs_rle_encoding (flat : List ℕ) :
    toPairs (rle_encoding flat) = pairsOf flat := by
  rw [rle_encoding_eq_pairs, toPairs_flattenPairs]

theorem mem_dotsOf (flat : List ℕ) (i : ℕ) :
    i ∈ dotsOf flat ↔ i < flat.length ∧ flat.getD i 0 = 1 := by
  simp [dotsOf, List.mem_filter, List.mem_range, and_comm]

theorem covered_runsFrom :
    ∀ (dots : List ℕ) (s l : ℕ), 1 ≤ l →
    List.Chain (· < ·) (s + l - 1) dots →
    ∀ i, (∃ r ∈ runsFrom dots s l, r.1 ≤ i ∧ i < r.1 + r.2) ↔
      ((s ≤ i ∧ i < s + l) ∨ i ∈ dots) := by
  intro dots
  induction dots with
  | nil =>
    intro s l _ _ i
    simp [runsFrom]
  | cons b rest ih =>
    intro s l hl hch i
    rw [List.chain_cons] at hch
    obtain ⟨hb1, hch'⟩ := hch
    by_cases hb : b = s + l
    · rw [runsFrom, if_pos hb]
      have hch2 : List.Chain (· < ·) (s + (l + 1) - 1) rest := by
        rw [hb] at hch'
        have heq : s + (l + 1) - 1 = s + l := by omega
        rw [heq]; exact hch'
      rw [ih s (l + 1) (by omega) hch2 i]
      subst hb
      simp only [List.mem_cons]
      constructor
      · rintro (h1 | h1)
        · by_cases hsl : i < s + l
          · exact Or.inl ⟨h1.1, hsl⟩
          · exact Or.inr (Or.inl (by omega))
        · exact Or.inr (Or.inr h1)
      · rintro (h1 | h1 | h1)
        · exact Or.inl ⟨h1.1, by omega⟩
        · exact Or.inl (by omega)
        · exact Or.inr h1
    · rw [runsFrom, if_neg hb]
      have hblt : s + l < b := by omega
      have hch2 : List.Chain (· < ·) (b + 1 - 1) rest := by
        simpa using hch'
      constructor
      · rintro ⟨r, hr, hri⟩
        rcases List.mem_cons.mp hr with rfl | hr2
        · left; exact hri
        · have := (ih b 1 (le_refl 1) hch2 i).mp ⟨r, hr2, hri⟩
          rcases this with hcase | hcase
          · right; simp only [List.mem_cons]; left; omega
          · right; simp only [List.mem_cons]; right; exact hcase
      · rintro (hcase | hcase)
        · exact ⟨(s, l), List.mem_cons_self _ _, hcase⟩
        · rcases List.mem_cons.mp hcase with rfl | hmem
          · have := (ih i 1 (le_refl 1) hch2 i).mpr (Or.inl (by omega))
            obtain ⟨r, hr, hri⟩ := this
            exact ⟨r, List.mem_cons_of_mem _ hr, hri⟩
          · have := (ih b 1 (le_refl 1) hch2 i).mpr (Or.inr hmem)
            obtain ⟨r, hr, hri⟩ := this
            exact ⟨r, List.mem_cons_of_mem _ hr, hri⟩

theorem wf_runsFrom :
    ∀ (dots : List ℕ) (s l : ℕ), 1 ≤ l →
    List.Chain (· < ·) (s + l - 1) dots →
    (∃ l2 tail, runsFrom dots s l = (s, l2) :: tail ∧ l ≤ l2) ∧
    (∀ r ∈ runsFrom dots s l, 1 ≤ r.2) ∧
    List.Chain' (fun a b => a.1 + a.2 < b.1) (runsFrom dots s l) := by
  intro dots
  induction dots with
  | nil =>
    intro s l hl _
    refine ⟨⟨l, [], rfl, le_refl l⟩, ?_, ?_⟩
    · intro r hr
      rcases List.mem_singleton.mp hr with rfl
      exact hl
    · exact List.chain'_singleton _
  | cons b rest ih =>
    intro s l hl hch
    rw [List.chain_cons] at hch
    obtain ⟨hb1, hch'⟩ := hch
    by_cases hb : b = s + l
    · rw [runsFrom, if_pos hb]
      have hch2 : List.Chain (· < ·) (s + (l + 1) - 1) rest := by
        rw [hb] at hch'
        have heq : s + (l + 1) - 1 = s + l := by omega
        rw [heq]; exact hch'
      obtain ⟨⟨l2, tail, heq, hle⟩, hall, hchain⟩ := ih s (l + 1) (by omega) hch2
      exact ⟨⟨l2, tail, heq, by omega⟩, hall, hchain⟩
    · rw [runsFrom, if_neg hb]
      have hblt : s + l < b := by omega
      have hch2 : List.Chain (· < ·) (b + 1 - 1) rest := by
        simpa using hch'
      obtain ⟨⟨l2, tail, heq, hle⟩, hall, hchain⟩ := ih b 1 (le_refl 1) hch2
      refine ⟨⟨l, (runsFrom rest b 1), rfl, le_refl l⟩, ?_, ?_⟩
      · intro r hr
        rcases List.mem_cons.mp hr with rfl | hr2
        · exact hl
        · exact hall r hr2
      · rw [heq]
        rw [List.chain'_cons]
        constructor
        · show s + l < b
          exact hblt
        · rw [← heq]; exact hchain

theorem pairsOf_wellformed (flat : List ℕ) :
    (∀ r ∈ pairsOf flat, 1 ≤ r.1 ∧ 1 ≤ r.2) ∧
    List.Chain' (fun a b => a.1 + a.2 < b.1) (pairsOf flat) := by
  have hpw : (dotsOf flat).Pairwise (· < ·) := (List.pairwise_lt_range _).filter _
  rw [pairsOf]
  cases hd : dotsOf flat with
  | nil => simp [runsOf]
  | cons b rest =>
    rw [hd] at hpw
    have hch : List.Chain (· < ·) (b + 1 - 1) rest := by
      have : List.Chain (· < ·) b rest := List.chain_iff_pairwise.mpr hpw
      simpa using this
    obtain ⟨_, hall, hchain⟩ := wf_runsFrom rest b 1 (le_refl 1) hch
    constructor
    · intro r hr
      rw [runsOf] at hr
      obtain ⟨r0, hr0, rfl⟩ := List.mem_map.mp hr
      exact ⟨by omega, hall r0 hr0⟩
    · rw [runsOf, List.chain'_map]
      exact hchain.imp (fun a b hab => by omega)

theorem coversAt_rle_iff (flat : List ℕ) (i : ℕ) :
    coversAt (rle_encoding flat) i ↔ (i < flat.length ∧ flat.getD i 0 = 1) := by
  rw [← mem_dotsOf]
  unfold coversAt
  rw [toPairs_rle_encoding, pairsOf]
  have hpw : (dotsOf flat).Pairwise (· < ·) := (List.pairwise_lt_range _).filter _
  cases hd : dotsOf flat with
  | nil => simp [runsOf]
  | cons b rest =>
    rw [hd] at hpw
    have hch : List.Chain (· < ·) (b + 1 - 1) rest := by
      have : List.Chain (· < ·) b rest := List.chain_iff_pairwise.mpr hpw
      simpa using this
    rw [runsOf]
    have hcov := covered_runsFrom rest b 1 (le_refl 1) hch i
    constructor
    · rintro ⟨r, hr, hcp⟩
      obtain ⟨r0, hr0, rfl⟩ := List.mem_map.mp hr
      have : r0.1 ≤ i ∧ i < r0.1 + r0.2 := by
        rcases hcp with ⟨h1, h2⟩
        simp only at h1 h2
        omega
      have := hcov.mp ⟨r0, hr0, this⟩
      rcases this with hrun | hmem
      · have : i = b := by omega
        subst this
        exact List.mem_cons_self _ _
      · exact List.mem_cons_of_mem _ hmem
    · intro hmem
      rcases List.mem_cons.mp hmem with rfl | hmem2
      · obtain ⟨r0, hr0, h1, h2⟩ := hcov.mpr (Or.inl (by omega))
        exact ⟨(r0.1 + 1, r0.2), List.mem_map_of_mem _ hr0, by constructor <;> simp <;> omega⟩
      · obtain ⟨r0, hr0, h1, h2⟩ := hcov.mpr (Or.inr hmem2)
        exact ⟨(r0.1 + 1, r0.2), List.mem_map_of_mem _ hr0, by constructor <;> simp <;> omega⟩

theorem rle_encoding_of_no_ones (flat : List ℕ)
    (hf : ∀ i, i < flat.length → flat.getD i 0 ≠ 1) : rle_encoding flat = [] := by
  have hd : dotsOf flat = [] := by
    rw [dotsOf, List.filter_eq_nil_iff]
    intro a ha
    have := List.mem_range.mp ha
    simpa using hf a this
  rw [rle_encoding, hd]
  rfl

theorem runsFrom_range' :
    ∀ (k s l : ℕ), runsFrom (List.range' (s + l) k) s l = [(s, l + k)] := by
  intro k
  induction k with
  | zero => intro s l; simp [runsFrom]
  | succ m ih =>
    intro s l
    rw [List.range'_succ, runsFrom, if_pos rfl]
    have : s + l + 1 = s + (l + 1) := by omega
    rw [this, ih s (l + 1)]
    have : l + 1 + m = l + (m + 1) := by omega
    rw [this]

theorem pairsOf_all_ones (flat : List ℕ) (hn : 1 ≤ flat.length)
    (hf : ∀ i, i < flat.length → flat.getD i 0 = 1) :
    pairsOf flat = [(1, flat.length)] := by
  have hd : dotsOf flat = List.range flat.length := by
    rw [dotsOf, List.filter_eq_self]
    intro a ha
    exact decide_eq_true (hf a (List.mem_range.mp ha))
  rw [pairsOf, hd]
  obtain ⟨m, hm⟩ : ∃ m, flat.length = m + 1 := ⟨flat.length - 1, by omega⟩
  rw [hm, List.range_eq_range', List.range'_succ, runsOf]
  have h01 : (0 : ℕ) + 1 = 1 := rfl
  have := runsFrom_range' m 0 1
  rw [h01] at this
  rw [this]
  simp [Nat.add_comm]

/-- Converts a boolean mask to the 0/1 integer image that numpy's
comparison against 1 sees (True == 1). -/
def boolImg (M : Fin h → Fin w → Bool) : Img h w := fun i j => if M i j then 1 else 0

/-- C2: for every boolean 2D mask, the (start, length) pairs of the
run-length encoding use 1-based starts over the column-major
flattening, have positive lengths, are sorted by strictly ascending
start with a gap between consecutive runs (runs maximal and
non-overlapping), and decode to exactly the true pixels of the mask, so
the encoding is lossless; moreover an all-false mask yields an empty
encoding and an all-true mask yields one run spanning the whole array. -/
theorem c2_rle_roundtrip (M : Fin h → Fin w → Bool) (hn : 0 < w * h) :
    (∀ p : Pix h w,
      coversAt (rle_encoding (flattenCM (boolImg M))) (colIdx p) ↔ M p.1 p.2 = true) ∧
    (∀ r ∈ toPairs (rle_encoding (flattenCM (boolImg M))), 1 ≤ r.1 ∧ 1 ≤ r.2) ∧
    List.Chain' (fun a b => a.1 + a.2 < b.1) (toPairs (rle_encoding (flattenCM (boolImg M)))) ∧
    rle_encoding (flattenCM (boolImg (fun (_ : Fin h) (_ : Fin w) => false))) = [] ∧
    toPairs (rle_encoding (flattenCM (boolImg (fun (_ : Fin h) (_ : Fin w) => true)))) =
      [(1, w * h)] := by
  refine ⟨?_, ?_, ?_, ?_, ?_⟩
  · intro p
    rw [coversAt_rle_iff, length_flattenCM, getD_flattenCM_colIdx]
    have hlt : colIdx p < w * h := colIdx_lt p
    constructor
    · rintro ⟨-, hv⟩
      by_cases hM : M p.1 p.2
      · exact hM
      · simp [boolImg, hM] at hv
    · intro hM
      refine ⟨hlt, ?_⟩
      simp [boolImg, hM]
  · rw [toPairs_rle_encoding]
    exact (pairsOf_wellformed _).1
  · rw [toPairs_rle_encoding]
    exact (pairsOf_wellformed _).2
  · apply rle_encoding_of_no_ones
    intro i hi
    rw [length_flattenCM] at hi
    rw [getD_flattenCM _ ⟨i, hi⟩]
    simp [boolImg]
  · rw [toPairs_rle_encoding]
    have hlen : (flattenCM (boolImg (fun (_ : Fin h) (_ : Fin w) => true))).length = w * h :=
      length_flattenCM _
    rw [← hlen]
    apply pairsOf_all_ones
    · rw [hlen]; exact hn
    · intro i hi
      rw [hlen] at hi
      rw [getD_flattenCM _ ⟨i, hi⟩]
      simp [boolImg]

/-- A concrete 2 by 2 diagonal mask used to instantiate the C2 theorem. -/
def diagMask : Fin 2 → Fin 2 → Bool := fun i j => decide (i.val = j.val)

/-- Witness for C2: the round-trip theorem applied to a concrete 2 by 2 mask. -/
theorem c2_rle_roundtrip_witness :
    0 < 2 * 2 ∧
    ((∀ p : Pix 2 2,
      coversAt (rle_encoding (flattenCM (boolImg diagMask))) (colIdx p) ↔
        diagMask p.1 p.2 = true) ∧
    (∀ r ∈ toPairs (rle_encoding (flattenCM (boolImg diagMask))), 1 ≤ r.1 ∧ 1 ≤ r.2) ∧
    List.Chain' (fun a b => a.1 + a.2 < b.1)
      (toPairs (rle_encoding (flattenCM (boolImg diagMask)))) ∧
    rle_encoding (flattenCM (boolImg (fun (_ : Fin 2) (_ : Fin 2) => false))) = [] ∧
    toPairs (rle_encoding (flattenCM (boolImg (fun (_ : Fin 2) (_ : Fin 2) => true)))) =
      [(1, 2 * 2)]) :=
  ⟨by decide, c2_rle_roundtrip diagMask (by decide)⟩

/-- C10: the run-length encoding of an arbitrary integer-valued 2D array
covers a pixel exactly when that pixel's value equals 1; any other value
(0, 2, or any other positive label) contributes nothing. -/
theorem c10_rle_encodes_ones_only (img : Img h w) (p : Pix h w) :
    coversAt (rle_encoding (flattenCM img)) (colIdx p) ↔ img p.1 p.2 = 1 := by
  rw [coversAt_rle_iff, length_flattenCM, getD_flattenCM_colIdx]
  have hlt : colIdx p < w * h := colIdx_lt p
  exact ⟨fun hx => hx.2, fun hx => ⟨hlt, hx⟩⟩

/-! ### Connected components

skimage's label, remove_small_objects and regionprops are built on
connected components.  Reachability is modeled by a saturating
expansion of finite vertex sets. -/

section Reach

variable {V : Type} [Fintype V] [DecidableEq V] (r : V → V → Prop) [DecidableRel r]

/-- One expansion step: add every vertex related to the current set. -/
def expandS (S : Finset V) : Finset V :=
  S ∪ Finset.univ.filter (fun q => ∃ p ∈ S, r p q)

theorem subset_expandS (S : Finset V) : S ⊆ expandS r S := Finset.subset_union_left

/-- Vertices reachable from `v`; the expansion saturates after at most
`Fintype.card V` steps. -/
def reach (v : V) : Finset V := (expandS r)^[Fintype.card V] {v}

theorem subset_iterate_expandS (S : Finset V) : ∀ n, S ⊆ (expandS r)^[n] S := by
  intro n
  induction n with
  | zero => exact le_refl S
  | succ m ih =>
    rw [Function.iterate_succ_apply']
    exact ih.trans (subset_expandS r _)

theorem expandS_reach_fixed (v : V) : expandS r (reach r v) = reach r v := by
  set f := expandS r with hf
  set N := Fintype.card V with hN
  have key : ∀ n, (f^[n + 1] {v} = f^[n] {v}) ∨ n + 1 ≤ (f^[n] {v}).card := by
    intro n
    induction n with
    | zero =>
      right
      simp
    | succ m ih =>
      rcases ih with heq | hcard
      · left
        have h2 := congrArg f heq
        rw [← Function.iterate_succ_apply' f (m + 1), ← Function.iterate_succ_apply' f m] at h2
        exact h2
      · by_cases heq : f^[m + 1] {v} = f^[m] {v}
        · left
          have h2 := congrArg f heq
          rw [← Function.iterate_succ_apply' f (m + 1), ← Function.iterate_succ_apply' f m] at h2
          exact h2
        · right
          have hsub : f^[m] {v} ⊆ f^[m + 1] {v} := by
            rw [Function.iterate_succ_apply']
            exact subset_expandS r _
          have hss : f^[m] {v} ⊂ f^[m + 1] {v} :=
            HasSubset.Subset.ssubset_of_ne hsub (fun hc => heq hc.symm)
          have := Finset.card_lt_card hss
          omega
  rcases key N with heq | hcard
  · show f (f^[N] {v}) = f^[N] {v}
    calc f (f^[N] {v}) = f^[N + 1] {v} := (Function.iterate_succ_apply' f N {v}).symm
      _ = f^[N] {v} := heq
  · have hle : (f^[N] {v}).card ≤ N := by
      rw [hN]
      exact Finset.card_le_univ _
    omega

theorem mem_reach_self (v : V) : v ∈ reach r v :=
  subset_iterate_expandS r {v} (Fintype.card V) (Finset.mem_singleton_self v)

theorem reach_closed {v q x : V} (hq : q ∈ reach r v) (hrx : r q x) : x ∈ reach r v := by
  have hfix := expandS_reach_fixed r v
  rw [← hfix]
  unfold expandS
  apply Finset.mem_union_right
  rw [Finset.mem_filter]
  exact ⟨Finset.mem_univ x, q, hq, hrx⟩

theorem reach_sound {v q : V} (hq : q ∈ reach r v) : Relation.ReflTransGen r v q := by
  have key : ∀ (n : ℕ) (S : Finset V) (x : V), x ∈ (expandS r)^[n] S →
      ∃ p ∈ S, Relation.ReflTransGen r p x := by
    intro n
    induction n with
    | zero =>
      intro S x hx
      exact ⟨x, hx, Relation.ReflTransGen.refl⟩
    | succ m ih =>
      intro S x hx
      rw [Function.iterate_succ_apply'] at hx
      rcases Finset.mem_union.mp hx with hx1 | hx2
      · exact ih S x hx1
      · rw [Finset.mem_filter] at hx2
        obtain ⟨-, p, hp, hpx⟩ := hx2
        obtain ⟨p0, hp0, hrtg⟩ := ih S p hp
        exact ⟨p0, hp0, hrtg.tail hpx⟩
  obtain ⟨p, hp, hrtg⟩ := key (Fintype.card V) {v} q hq
  rw [Finset.mem_singleton] at hp
  rw [hp] at hrtg
  exact hrtg

theorem reach_complete {v q : V} (hvq : Relation.ReflTransGen r v q) : q ∈ reach r v := by
  induction hvq with
  | refl => exact mem_reach_self r v
  | tail _ hstep ih => exact reach_closed r ih hstep

theorem mem_reach_iff {v q : V} : q ∈ reach r v ↔ Relation.ReflTransGen r v q :=
  ⟨reach_sound r, reach_complete r⟩

theorem reach_eq_of_mem (hsym : Symmetric r) {v q : V} (hq : q ∈ reach r v) :
    reach r q = reach r v := by
  have hvq : Relation.ReflTransGen r v q := reach_sound r hq
  have hqv : Relation.ReflTransGen r q v := Relation.ReflTransGen.symmetric hsym hvq
  ext x
  rw [mem_reach_iff, mem_reach_iff]
  exact ⟨fun hqx => hvq.trans hqx, fun hvx => hqv.trans hvx⟩

end Reach

/-- Eight-neighborhood adjacency (full connectivity, skimage's 2D
default for label): distinct pixels whose coordinates differ by at most
one in each axis. -/
def adj8 (p q : Pix h w) : Prop :=
  p ≠ q ∧ p.1.val ≤ q.1.val + 1 ∧ q.1.val ≤ p.1.val + 1 ∧
    p.2.val ≤ q.2.val + 1 ∧ q.2.val ≤ p.2.val + 1

instance (p q : Pix h w) : Decidable (adj8 p q) := by
  unfold adj8; infer_instance

theorem adj8_symm : Symmetric (fun p q : Pix h w => adj8 p q) := by
  rintro p q ⟨hne, h1, h2, h3, h4⟩
  exact ⟨hne.symm, h2, h1, h4, h3⟩

/-- Four-neighborhood adjacency (cross connectivity, the default of
remove_small_objects): pixels at Manhattan distance exactly one. -/
def adj4 (p q : Pix h w) : Prop :=
  (p.1 = q.1 ∧ (p.2.val = q.2.val + 1 ∨ q.2.val = p.2.val + 1)) ∨
  (p.2 = q.2 ∧ (p.1.val = q.1.val + 1 ∨ q.1.val = p.1.val + 1))

instance (p q : Pix h w) : Decidable (adj4 p q) := by
  unfold adj4; infer_instance

theorem adj4_symm : Symmetric (fun p q : Pix h w => adj4 p q) := by
  rintro p q (⟨he, hd⟩ | ⟨he, hd⟩)
  · exact Or.inl ⟨he.symm, hd.symm⟩
  · exact Or.inr ⟨he.symm, hd.symm⟩

/-- One step of connected-component labeling on an integer image:
adjacent pixels carrying the same nonzero value. -/
def lstep (conn : Pix h w → Pix h w → Prop) (img : Img h w) (p q : Pix h w) : Prop :=
  img q.1 q.2 = img p.1 p.2 ∧ img p.1 p.2 ≠ 0 ∧ conn p q

instance (conn : Pix h w → Pix h w → Prop) [DecidableRel conn] (img : Img h w)
    (p q : Pix h w) : Decidable (lstep conn img p q) := by
  unfold lstep; infer_instance

theorem lstep_symm (conn : Pix h w → Pix h w → Prop) (hconn : Symmetric conn)
    (img : Img h w) : Symmetric (lstep conn img) := by
  rintro p q ⟨hval, hnz, hc⟩
  refine ⟨hval.symm, ?_, hconn hc⟩
  rw [hval]
  exact hnz

theorem comp_val_eq (conn : Pix h w → Pix h w → Prop) [DecidableRel conn]
    (img : Img h w) {p q : Pix h w}
    (hq : q ∈ reach (lstep conn img) p) : img q.1 q.2 = img p.1 p.2 := by
  have hrtg := reach_sound _ hq
  clear hq
  induction hrtg with
  | refl => rfl
  | tail _ hstep ih => exact hstep.1.trans ih

/-! ### Rank of an element inside a finite set of naturals -/

theorem rankFin_mem_pos {s : Finset ℕ} {x : ℕ} (hx : x ∈ s) :
    1 ≤ (s.filter (fun z => z ≤ x)).card := by
  have hmem : x ∈ s.filter (fun z => z ≤ x) := Finset.mem_filter.mpr ⟨hx, le_refl x⟩
  exact Finset.card_pos.mpr ⟨x, hmem⟩

theorem rankFin_le_card (s : Finset ℕ) (x : ℕ) :
    (s.filter (fun z => z ≤ x)).card ≤ s.card :=
  Finset.card_le_card (Finset.filter_subset _ _)

theorem rankFin_lt_of_lt {s : Finset ℕ} {x y : ℕ} (hy : y ∈ s) (hxy : x < y) :
    (s.filter (fun z => z ≤ x)).card < (s.filter (fun z => z ≤ y)).card := by
  apply Finset.card_lt_card
  rw [Finset.ssubset_iff_of_subset]
  · refine ⟨y, Finset.mem_filter.mpr ⟨hy, le_refl y⟩, ?_⟩
    intro hc
    have := (Finset.mem_filter.mp hc).2
    omega
  · intro z hz
    rcases Finset.mem_filter.mp hz with ⟨hzs, hzx⟩
    exact Finset.mem_filter.mpr ⟨hzs, by omega⟩

theorem rankFin_injOn (s : Finset ℕ) :
    Set.InjOn (fun x => (s.filter (fun z => z ≤ x)).card) s := by
  intro x hx y hy hxy
  by_contra hne
  rcases lt_or_gt_of_ne hne with hlt | hgt
  · have := rankFin_lt_of_lt hy hlt
    simp only at hxy
    omega
  · have := rankFin_lt_of_lt hx hgt
    simp only at hxy
    omega

theorem rankFin_image (s : Finset ℕ) :
    s.image (fun x => (s.filter (fun z => z ≤ x)).card) = Finset.Icc 1 s.card := by
  apply Finset.eq_of_subset_of_card_le
  · intro v hv
    obtain ⟨x, hx, rfl⟩ := Finset.mem_image.mp hv
    exact Finset.mem_Icc.mpr ⟨rankFin_mem_pos hx, rankFin_le_card s x⟩
  · rw [Nat.card_Icc, Finset.card_image_of_injOn (rankFin_injOn s)]
    omega

/-! ### Connected-component labeling (skimage.measure.label model) -/

/-- Row-major scan position of a pixel, used to number components by
first occurrence. -/
def rasterIdx (p : Pix h w) : ℕ := p.1.val * w + p.2.val

theorem rasterIdx_inj {p q : Pix h w} (hpq : rasterIdx p = rasterIdx q) : p = q := by
  rcases p with ⟨i1, j1⟩
  rcases q with ⟨i2, j2⟩
  have hj1 : j1.val < w := j1.isLt
  have hj2 : j2.val < w := j2.isLt
  unfold rasterIdx at hpq
  simp only at hpq
  have hi : i1.val = i2.val := by
    rcases Nat.lt_trichotomy i1.val i2.val with hlt | heqv | hgt
    · exfalso
      have h2 : (i1.val + 1) * w ≤ i2.val * w := Nat.mul_le_mul_right w hlt
      have h3 : (i1.val + 1) * w = i1.val * w + w := by ring
      omega
    · exact heqv
    · exfalso
      have h2 : (i2.val + 1) * w ≤ i1.val * w := Nat.mul_le_mul_right w hgt
      have h3 : (i2.val + 1) * w = i2.val * w + w := by ring
      omega
  have hj : j1.val = j2.val := by
    rw [hi] at hpq
    omega
  exact Prod.ext (Fin.ext hi) (Fin.ext hj)

/-- One labeling step with the 8-neighborhood (skimage 2D default). -/
def lstep8 (img : Img h w) : Pix h w → Pix h w → Prop := lstep adj8 img

instance (img : Img h w) : DecidableRel (lstep8 img) := by
  unfold lstep8; infer_instance

theorem lstep8_symm (img : Img h w) : Symmetric (lstep8 img) :=
  lstep_symm adj8 adj8_symm img

/-- The connected component (8-connectivity, equal nonzero value) of a pixel. -/
def comp8 (img : Img h w) (p : Pix h w) : Finset (Pix h w) := reach (lstep8 img) p

/-- Scan position of the first pixel of the component of `p`. -/
def repIdx (img : Img h w) (p : Pix h w) : ℕ :=
  ((comp8 img p).image rasterIdx).min'
    (Finset.Nonempty.image ⟨p, mem_reach_self _ p⟩ _)

/-- First-pixel scan positions of all foreground components. -/
def repsSet (img : Img h w) : Finset ℕ :=
  (Finset.univ.filter (fun p : Pix h w => img p.1 p.2 ≠ 0)).image (repIdx img)

/-- Number of connected components (instances) of the image. -/
def numComponents (img : Img h w) : ℕ := (repsSet img).card

/-- Connected-component labeling: the model of skimage.measure.label on
2D input with default full connectivity; components are numbered 1, 2,
... in order of their first pixel in scan order, background keeps 0. -/
def labelI (img : Img h w) : Img h w := fun i j =>
  if img i j ≠ 0 then
    ((repsSet img).filter (fun t => t ≤ repIdx img (i, j))).card
  else 0

theorem comp8_eq_of_mem (img : Img h w) {p q : Pix h w} (hq : q ∈ comp8 img p) :
    comp8 img q = comp8 img p :=
  reach_eq_of_mem _ (lstep8_symm img) hq

theorem repIdx_eq_of_mem (img : Img h w) {p q : Pix h w} (hq : q ∈ comp8 img p) :
    repIdx img q = repIdx img p := by
  unfold repIdx
  congr 1
  rw [comp8_eq_of_mem img hq]

theorem exists_pix_repIdx (img : Img h w) (p : Pix h w) :
    ∃ x ∈ comp8 img p, rasterIdx x = repIdx img p := by
  have hmem := Finset.min'_mem ((comp8 img p).image rasterIdx)
    (Finset.Nonempty.image ⟨p, mem_reach_self _ p⟩ _)
  obtain ⟨x, hx, hxe⟩ := Finset.mem_image.mp hmem
  exact ⟨x, hx, hxe⟩

theorem comp8_eq_of_repIdx_eq (img : Img h w) {p q : Pix h w}
    (hr : repIdx img p = repIdx img q) : comp8 img p = comp8 img q := by
  obtain ⟨x, hx, hxe⟩ := exists_pix_repIdx img p
  obtain ⟨y, hy, hye⟩ := exists_pix_repIdx img q
  have hxy : x = y := rasterIdx_inj (by rw [hxe, hye, hr])
  rw [← comp8_eq_of_mem img hx, hxy]
  exact comp8_eq_of_mem img hy

theorem repIdx_mem_repsSet (img : Img h w) {p : Pix h w} (hp : img p.1 p.2 ≠ 0) :
    repIdx img p ∈ repsSet img := by
  apply Finset.mem_image_of_mem
  exact Finset.mem_filter.mpr ⟨Finset.mem_univ p, hp⟩

theorem labelI_pos (img : Img h w) {p : Pix h w} (hp : img p.1 p.2 ≠ 0) :
    1 ≤ labelI img p.1 p.2 := by
  unfold labelI
  rw [if_pos hp]
  exact rankFin_mem_pos (repIdx_mem_repsSet img hp)

theorem labelI_eq_zero_iff (img : Img h w) (p : Pix h w) :
    labelI img p.1 p.2 = 0 ↔ img p.1 p.2 = 0 := by
  constructor
  · intro hl
    by_contra hp
    have := labelI_pos img hp
    omega
  · intro hp
    unfold labelI
    rw [if_neg (by simpa using hp)]

theorem labelI_le_numComponents (img : Img h w) (p : Pix h w) :
    labelI img p.1 p.2 ≤ numComponents img := by
  unfold labelI numComponents
  by_cases hp : img p.1 p.2 ≠ 0
  · rw [if_pos hp]
    exact rankFin_le_card _ _
  · rw [if_neg hp]
    exact Nat.zero_le _

theorem labelI_eq_iff (img : Img h w) {q : Pix h w} (hq : img q.1 q.2 ≠ 0)
    (p : Pix h w) :
    labelI img p.1 p.2 = labelI img q.1 q.2 ↔ p ∈ comp8 img q := by
  constructor
  · intro hl
    have hp : img p.1 p.2 ≠ 0 := by
      intro hp0
      have h0 : labelI img p.1 p.2 = 0 := (labelI_eq_zero_iff img p).mpr hp0
      have h1 := labelI_pos img hq
      omega
    unfold labelI at hl
    rw [if_pos hp, if_pos hq] at hl
    have hrep : repIdx img p = repIdx img q :=
      rankFin_injOn (repsSet img) (repIdx_mem_repsSet img hp)
        (repIdx_mem_repsSet img hq) hl
    have hcomp := comp8_eq_of_repIdx_eq img hrep
    rw [← hcomp]
    exact mem_reach_self _ p
  · intro hmem
    have hval : img p.1 p.2 = img q.1 q.2 := comp_val_eq adj8 img hmem
    have hp : img p.1 p.2 ≠ 0 := by rw [hval]; exact hq
    unfold labelI
    rw [if_pos hp, if_pos hq]
    have hre : repIdx img (p.1, p.2) = repIdx img (q.1, q.2) := repIdx_eq_of_mem img hmem
    rw [hre]

/-! ### Image value statistics (np.unique, min, max) -/

/-- The set of distinct pixel values of an image. -/
def vals (img : Img h w) : Finset ℕ :=
  Finset.univ.image (fun p : Pix h w => img p.1 p.2)

/-- Number of distinct pixel values: len(np.unique(img)). -/
def uniqueCount (img : Img h w) : ℕ := (vals img).card

/-- Minimum pixel value (0 on an empty image). -/
def minV (img : Img h w) : ℕ :=
  if hne : (vals img).Nonempty then (vals img).min' hne else 0

/-- Maximum pixel value (0 on an empty image): img.max(). -/
def maxV (img : Img h w) : ℕ :=
  if hne : (vals img).Nonempty then (vals img).max' hne else 0

theorem mem_vals (img : Img h w) (v : ℕ) :
    v ∈ vals img ↔ ∃ p : Pix h w, img p.1 p.2 = v := by
  unfold vals
  rw [Finset.mem_image]
  constructor
  · rintro ⟨p, -, hp⟩
    exact ⟨p, hp⟩
  · rintro ⟨p, hp⟩
    exact ⟨p, Finset.mem_univ p, hp⟩

/-- The image contains a background (zero) pixel. -/
def hasBG (img : Img h w) : Prop := ∃ p : Pix h w, img p.1 p.2 = 0

instance (img : Img h w) : Decidable (hasBG img) := by
  unfold hasBG; infer_instance

theorem vals_labelI (img : Img h w) :
    vals (labelI img) =
      (if hasBG img then {0} else ∅) ∪ Finset.Icc 1 (numComponents img) := by
  ext v
  rw [mem_vals]
  constructor
  · rintro ⟨p, hp⟩
    by_cases hz : img p.1 p.2 = 0
    · have h0 : labelI img p.1 p.2 = 0 := (labelI_eq_zero_iff img p).mpr hz
      have hv : v = 0 := by rw [← hp, h0]
      subst hv
      apply Finset.mem_union_left
      rw [if_pos (show hasBG img from ⟨p, hz⟩)]
      exact Finset.mem_singleton_self 0
    · apply Finset.mem_union_right
      have h1 := labelI_pos img hz
      have h2 := labelI_le_numComponents img p
      rw [hp] at h1 h2
      exact Finset.mem_Icc.mpr ⟨h1, h2⟩
  · intro hv
    rcases Finset.mem_union.mp hv with h0 | h1
    · by_cases hbg : hasBG img
      · rw [if_pos hbg] at h0
        rw [Finset.mem_singleton] at h0
        subst h0
        obtain ⟨p, hp⟩ := hbg
        exact ⟨p, (labelI_eq_zero_iff img p).mpr hp⟩
      · rw [if_neg hbg] at h0
        exact absurd h0 (Finset.not_mem_empty v)
    · have hvim : v ∈ (repsSet img).image
          (fun x => ((repsSet img).filter (fun z => z ≤ x)).card) := by
        rw [rankFin_image]
        exact h1
      obtain ⟨t, ht, hrank⟩ := Finset.mem_image.mp hvim
      obtain ⟨q, hq, hqt⟩ := Finset.mem_image.mp ht
      rw [Finset.mem_filter] at hq
      refine ⟨q, ?_⟩
      unfold labelI
      rw [if_pos hq.2]
      rw [show repIdx img (q.1, q.2) = t from hqt]
      exact hrank

theorem uniqueCount_labelI (img : Img h w) :
    uniqueCount (labelI img) =
      numComponents img + (if hasBG img then 1 else 0) := by
  unfold uniqueCount
  rw [vals_labelI]
  by_cases hbg : hasBG img
  · rw [if_pos hbg, if_pos hbg]
    rw [Finset.card_union_of_disjoint]
    · rw [Finset.card_singleton, Nat.card_Icc]
      omega
    · rw [Finset.disjoint_singleton_left]
      intro hc
      have := (Finset.mem_Icc.mp hc).1
      omega
  · rw [if_neg hbg, if_neg hbg]
    rw [Finset.empty_union, Nat.card_Icc]
    omega

theorem numComponents_pos (img : Img h w) (hfg : ∃ p : Pix h w, img p.1 p.2 ≠ 0) :
    1 ≤ numComponents img := by
  obtain ⟨p, hp⟩ := hfg
  unfold numComponents
  exact Finset.card_pos.mpr ⟨repIdx img p, repIdx_mem_repsSet img hp⟩

theorem maxV_labelI (img : Img h w) (hfg : ∃ p : Pix h w, img p.1 p.2 ≠ 0) :
    maxV (labelI img) = numComponents img := by
  obtain ⟨p, hp⟩ := hfg
  have hK1 : 1 ≤ numComponents img := numComponents_pos img ⟨p, hp⟩
  have hne : (vals (labelI img)).Nonempty :=
    ⟨labelI img p.1 p.2, (mem_vals _ _).mpr ⟨p, rfl⟩⟩
  unfold maxV
  rw [dif_pos hne]
  apply le_antisymm
  · apply Finset.max'_le
    intro v hv
    obtain ⟨q, hq⟩ := (mem_vals _ _).mp hv
    rw [← hq]
    exact labelI_le_numComponents img q
  · apply Finset.le_max'
    rw [vals_labelI]
    apply Finset.mem_union_right
    exact Finset.mem_Icc.mpr ⟨hK1, le_refl _⟩

theorem maxV_labelI_zero (img : Img h w) (hz : ∀ p : Pix h w, img p.1 p.2 = 0) :
    maxV (labelI img) = 0 := by
  unfold maxV
  by_cases hne : (vals (labelI img)).Nonempty
  · rw [dif_pos hne]
    have : ∀ v ∈ vals (labelI img), v ≤ 0 := by
      intro v hv
      obtain ⟨q, hq⟩ := (mem_vals _ _).mp hv
      have h0 : labelI img q.1 q.2 = 0 := (labelI_eq_zero_iff img q).mpr (hz q)
      omega
    exact Nat.le_antisymm (Finset.max'_le _ _ _ this) (Nat.zero_le _)
  · rw [dif_neg hne]

/-- Number of pixels with value exactly `t`. -/
def areaCnt (img : Img h w) (t : ℕ) : ℕ :=
  (Finset.univ.filter (fun p : Pix h w => img p.1 p.2 = t)).card

theorem areaCnt_labelI (img : Img h w) {q : Pix h w} (hq : img q.1 q.2 ≠ 0) :
    areaCnt (labelI img) (labelI img q.1 q.2) = (comp8 img q).card := by
  unfold areaCnt
  congr 1
  ext p
  rw [Finset.mem_filter]
  constructor
  · rintro ⟨-, hp⟩
    exact (labelI_eq_iff img hq p).mp hp
  · intro hp
    exact ⟨Finset.mem_univ p, (labelI_eq_iff img hq p).mpr hp⟩

/-! ### Size estimation (`evaluate_size`, helper.py lines 188-202) -/

/-- Python's int() truncation toward zero, on an exact rational. -/
def pyInt (q : ℚ) : ℤ := if q < 0 then -⌊-q⌋ else ⌊q⌋

/-- The pixel set of the instance whose first pixel in scan order sits
at position `t`. -/
def componentOf (img : Img h w) (t : ℕ) : Finset (Pix h w) :=
  Finset.univ.filter (fun p => img p.1 p.2 ≠ 0 ∧ repIdx img p = t)

/-- The multiset of instance pixel areas of a label image. -/
def instanceAreas (img : Img h w) : Multiset ℕ :=
  (repsSet img).val.map (fun t => (componentOf img t).card)

/-- The region areas in label order, as listed by
regionprops(label(image)): one region per label present in the labeled
image. -/
def areasList (img : Img h w) : List ℕ :=
  ((List.range (maxV (labelI img))).map
    (fun k => areaCnt (labelI img) (k + 1))).filter (fun a => a ≠ 0)

/-- areas.sort(): the region areas in ascending order. -/
def sortedAreas (img : Img h w) : List ℕ :=
  List.insertionSort (· ≤ ·) (areasList img)

/-- label_counts = len(np.unique(label(image))). -/
def labelCounts (img : Img h w) : ℕ := uniqueCount (labelI img)

/-- The eval_count of evaluate_size: int(label_counts * ratio), replaced
by 1 when that truncation is zero.  (For the nonnegative products that
arise from a positive ratio, the toNat conversion is exact.) -/
def evalCount (img : Img h w) (ratio : ℚ) : ℕ :=
  if (pyInt ((labelCounts img : ℚ) * ratio)).toNat = 0 then 1
  else (pyInt ((labelCounts img : ℚ) * ratio)).toNat

/-- Mean of the eval_count smallest areas; none models the NaN of
np.array([]).mean() on an empty slice. -/
def sizeMean (img : Img h w) (ratio : ℚ) : Option ℚ :=
  if ((sortedAreas img).take (evalCount img ratio)).length = 0 then none
  else some ((((sortedAreas img).take (evalCount img ratio)).sum : ℚ) /
    (((sortedAreas img).take (evalCount img ratio)).length : ℚ))

/-- evaluate_size: square root (average_area ** 0.5) of the mean of the
selected smallest instance areas; none models the propagated NaN. -/
noncomputable def evaluate_size (img : Img h w) (ratio : ℚ) : Option ℝ :=
  (sizeMean img ratio).map (fun q => Real.sqrt ((q : ℚ) : ℝ))

theorem componentOf_repIdx (img : Img h w) {q : Pix h w} (hq : img q.1 q.2 ≠ 0) :
    componentOf img (repIdx img q) = comp8 img q := by
  ext p
  unfold componentOf
  rw [Finset.mem_filter]
  constructor
  · rintro ⟨-, hp, hrep⟩
    have hcomp := comp8_eq_of_repIdx_eq img hrep
    rw [← hcomp]
    exact mem_reach_self _ p
  · intro hp
    refine ⟨Finset.mem_univ p, ?_, repIdx_eq_of_mem img hp⟩
    have : img p.1 p.2 = img q.1 q.2 := comp_val_eq adj8 img hp
    rw [this]
    exact hq

theorem exists_pix_label (img : Img h w) {v : ℕ}
    (hv : v ∈ Finset.Icc 1 (numComponents img)) :
    ∃ q : Pix h w, img q.1 q.2 ≠ 0 ∧ labelI img q.1 q.2 = v := by
  have hvim : v ∈ (repsSet img).image
      (fun x => ((repsSet img).filter (fun z => z ≤ x)).card) := by
    rw [rankFin_image]
    exact hv
  obtain ⟨t, ht, hrank⟩ := Finset.mem_image.mp hvim
  obtain ⟨q, hq, hqt⟩ := Finset.mem_image.mp ht
  rw [Finset.mem_filter] at hq
  refine ⟨q, hq.2, ?_⟩
  unfold labelI
  rw [if_pos hq.2]
  rw [show repIdx img (q.1, q.2) = t from hqt]
  exact hrank

theorem labelI_apply_fg (img : Img h w) {q : Pix h w} (hq : img q.1 q.2 ≠ 0) :
    labelI img q.1 q.2 =
      ((repsSet img).filter (fun z => z ≤ repIdx img q)).card := by
  unfold labelI
  rw [if_pos hq]

theorem areaCnt_pos_of_label (img : Img h w) {v : ℕ}
    (hv : v ∈ Finset.Icc 1 (numComponents img)) :
    areaCnt (labelI img) v ≠ 0 := by
  obtain ⟨q, hq, hlv⟩ := exists_pix_label img hv
  rw [← hlv, areaCnt_labelI img hq]
  have : q ∈ comp8 img q := mem_reach_self _ q
  have hpos := Finset.card_pos.mpr ⟨q, this⟩
  omega

theorem areasList_coe (img : Img h w) :
    ((areasList img : List ℕ) : Multiset ℕ) = instanceAreas img := by
  by_cases hfg : ∃ p : Pix h w, img p.1 p.2 ≠ 0
  · have hmax : maxV (labelI img) = numComponents img := maxV_labelI img hfg
    set K := numComponents img with hK
    set L := labelI img with hL
    have hnoop : areasList img =
        (List.range K).map (fun k => areaCnt L (k + 1)) := by
      unfold areasList
      rw [← hL, hmax]
      apply List.filter_eq_self.mpr
      intro a ha
      obtain ⟨k, hk, rfl⟩ := List.mem_map.mp ha
      rw [List.mem_range] at hk
      have hv : k + 1 ∈ Finset.Icc 1 K := Finset.mem_Icc.mpr ⟨by omega, by omega⟩
      exact decide_eq_true (areaCnt_pos_of_label img hv)
    rw [hnoop]
    -- pass to multisets
    show ((List.range K).map (fun k => areaCnt L (k + 1)) : Multiset ℕ) = instanceAreas img
    have step1 : ((List.range K).map (fun k => areaCnt L (k + 1)) : Multiset ℕ) =
        (Multiset.range K).map (fun k => areaCnt L (k + 1)) := by
      rfl
    rw [step1]
    have step2 : (Multiset.range K).map (fun k => areaCnt L (k + 1)) =
        ((Multiset.range K).map (fun k => k + 1)).map (fun v => areaCnt L v) := by
      rw [Multiset.map_map]
      rfl
    rw [step2]
    have step3 : (Multiset.range K).map (fun k => k + 1) =
        (Finset.Icc 1 K).val := by
      have himg : (Finset.range K).image (fun k => k + 1) = Finset.Icc 1 K := by
        ext v
        rw [Finset.mem_image]
        simp only [Finset.mem_range, Finset.mem_Icc]
        constructor
        · rintro ⟨k, hk, rfl⟩
          omega
        · intro hv
          exact ⟨v - 1, by omega, by omega⟩
      have hval := congrArg Finset.val himg
      rw [Finset.image_val] at hval
      have hnodup : ((Finset.range K).val.map (fun k => k + 1)).Nodup := by
        apply Multiset.Nodup.map
        · intro a b hab
          have hab2 : a + 1 = b + 1 := hab
          omega
        · exact (Finset.range K).nodup
      rw [Multiset.dedup_eq_self.mpr hnodup] at hval
      exact hval
    rw [step3]
    have step4 : (Finset.Icc 1 K).val =
        (repsSet img).val.map (fun t => ((repsSet img).filter (fun z => z ≤ t)).card) := by
      have himg := rankFin_image (repsSet img)
      have hval := congrArg Finset.val himg
      rw [Finset.image_val] at hval
      have hnodup : ((repsSet img).val.map
          (fun t => ((repsSet img).filter (fun z => z ≤ t)).card)).Nodup := by
        apply Multiset.Nodup.map_on
        · intro a ha b hb hab
          exact rankFin_injOn (repsSet img) ha hb hab
        · exact (repsSet img).nodup
      rw [Multiset.dedup_eq_self.mpr hnodup] at hval
      exact hval.symm
    rw [step4, Multiset.map_map]
    unfold instanceAreas
    apply Multiset.map_congr rfl
    intro t ht
    obtain ⟨q, hqmem, hqt⟩ := Finset.mem_image.mp ht
    rw [Finset.mem_filter] at hqmem
    have hq : img q.1 q.2 ≠ 0 := hqmem.2
    show areaCnt L ((repsSet img).filter (fun z => z ≤ t)).card = (componentOf img t).card
    subst hqt
    rw [← labelI_apply_fg img hq, ← hL, areaCnt_labelI img hq, componentOf_repIdx img hq]
  · push_neg at hfg
    have hmax : maxV (labelI img) = 0 := maxV_labelI_zero img hfg
    have h1 : areasList img = [] := by
      unfold areasList
      rw [hmax]
      rfl
    have h2 : repsSet img = ∅ := by
      unfold repsSet
      have : Finset.univ.filter (fun p : Pix h w => img p.1 p.2 ≠ 0) = ∅ := by
        apply Finset.filter_eq_empty_iff.mpr
        intro p _
        simp [hfg p]
      rw [this]
      rfl
    rw [h1]
    unfold instanceAreas
    rw [h2]
    rfl

theorem sortedAreas_sorted (img : Img h w) :
    (sortedAreas img).Sorted (· ≤ ·) :=
  List.sorted_insertionSort _ _

theorem sortedAreas_coe (img : Img h w) :
    ((sortedAreas img : List ℕ) : Multiset ℕ) = instanceAreas img := by
  rw [← areasList_coe]
  exact Multiset.coe_eq_coe.mpr (List.perm_insertionSort _ _)

theorem length_sortedAreas (img : Img h w) :
    (sortedAreas img).length = numComponents img := by
  have hco := congrArg Multiset.card (sortedAreas_coe img)
  rw [Multiset.coe_card] at hco
  unfold instanceAreas at hco
  rw [Multiset.card_map] at hco
  exact hco

/-- The background contribution to label_counts: one exactly when a
zero pixel exists (np.unique then lists 0 among the distinct values). -/
def bgCount (img : Img h w) : ℕ := if hasBG img then 1 else 0

/-- Mean area asserted by claim C3: the smallest max(1, int(N * ratio))
instance areas averaged, with N the instance count. -/
def claimSizeMean (img : Img h w) (ratio : ℚ) : ℚ :=
  ((((sortedAreas img).take
      (max 1 (pyInt ((numComponents img : ℚ) * ratio)).toNat)).sum : ℚ) /
    (((sortedAreas img).take
      (max 1 (pyInt ((numComponents img : ℚ) * ratio)).toNat)).length : ℚ))

/-- Corrected mean area: the code floors label_counts * ratio, where
label_counts counts the distinct values of the labeled image — the
instance count plus one when background is present. -/
def amendedSizeMean (img : Img h w) (ratio : ℚ) : ℚ :=
  ((((sortedAreas img).take
      (max 1 (pyInt (((numComponents img + bgCount img : ℕ) : ℚ) * ratio)).toNat)).sum : ℚ) /
    (((sortedAreas img).take
      (max 1 (pyInt (((numComponents img + bgCount img : ℕ) : ℚ) * ratio)).toNat)).length : ℚ))

theorem ifzero_eq_max (n : ℕ) : (if n = 0 then 1 else n) = max 1 n := by
  by_cases hn : n = 0
  · simp [hn]
  · rw [if_neg hn]
    omega

theorem labelCounts_eq (img : Img h w) :
    labelCounts img = numComponents img + bgCount img := by
  unfold labelCounts bgCount
  exact uniqueCount_labelI img

theorem evalCount_eq_max (img : Img h w) (ratio : ℚ) :
    evalCount img ratio =
      max 1 (pyInt (((numComponents img + bgCount img : ℕ) : ℚ) * ratio)).toNat := by
  unfold evalCount
  rw [labelCounts_eq]
  exact ifzero_eq_max _

/-- C3 amended: for a label image with at least one instance,
evaluate_size sorts the exact multiset of instance pixel areas
ascending and returns the square root of the mean of the smallest
max(1, int(L * ratio)) of them — where L counts the distinct values of
the labeled image (the instance count plus one for background when a
background pixel is present), not the bare instance count N stated by
the claim. -/
theorem c3_amended (img : Img h w) (ratio : ℚ) (_hratio : 0 < ratio)
    (hfg : ∃ p : Pix h w, img p.1 p.2 ≠ 0) :
    (sortedAreas img).Sorted (· ≤ ·) ∧
    ((sortedAreas img : List ℕ) : Multiset ℕ) = instanceAreas img ∧
    evaluate_size img ratio =
      some (Real.sqrt ((amendedSizeMean img ratio : ℚ) : ℝ)) := by
  refine ⟨sortedAreas_sorted img, sortedAreas_coe img, ?_⟩
  have hlen : (sortedAreas img).length = numComponents img := length_sortedAreas img
  have hK1 : 1 ≤ numComponents img := numComponents_pos img hfg
  have hec := evalCount_eq_max img ratio
  have htlen : ¬ (((sortedAreas img).take (evalCount img ratio)).length = 0) := by
    rw [List.length_take, hec, hlen]
    have hmx : 1 ≤ max 1
        (pyInt (((numComponents img + bgCount img : ℕ) : ℚ) * ratio)).toNat :=
      le_max_left 1 _
    omega
  unfold evaluate_size sizeMean
  rw [if_neg htlen, hec]
  rfl

/-- A 1 by 8 label image with three instances, of areas 1, 2 and 3. -/
def sizeImg : Img 1 8 := fun _ j => [1, 0, 2, 2, 0, 3, 3, 3].getD j.val 0

/-- C3 counterexample: with instances of areas 1, 2, 3 and ratio 1/2 the
claim selects max(1, int(3 * 0.5)) = 1 smallest area (mean 1, estimate
sqrt 1), but the code floors label_counts * ratio with label_counts = 4
distinct values of the labeled image (background included), averaging
the two smallest areas and returning sqrt(3/2). -/
theorem c3_counterexample :
    evaluate_size sizeImg (1/2) ≠
      some (Real.sqrt ((claimSizeMean sizeImg (1/2) : ℚ) : ℝ)) := by
  have hlc : labelCounts sizeImg = 4 := by decide
  have hK : numComponents sizeImg = 3 := by decide
  have hsa : sortedAreas sizeImg = [1, 2, 3] := by decide
  have hp4 : pyInt (((4 : ℕ) : ℚ) * (1/2)) = 2 := by
    unfold pyInt
    rw [if_neg (by norm_num)]
    norm_num
  have hp3 : pyInt (((3 : ℕ) : ℚ) * (1/2)) = 1 := by
    unfold pyInt
    rw [if_neg (by norm_num)]
    norm_num
  have hec : evalCount sizeImg (1/2) = 2 := by
    unfold evalCount
    rw [hlc, hp4]
    rfl
  have hsm : sizeMean sizeImg (1/2) = some (3/2) := by
    unfold sizeMean
    rw [hsa, hec]
    norm_num [List.take_succ_cons]
  have hcm : claimSizeMean sizeImg (1/2) = 1 := by
    unfold claimSizeMean
    rw [hK, hsa, hp3]
    norm_num [List.take_succ_cons]
  intro hcontra
  rw [hcm] at hcontra
  unfold evaluate_size at hcontra
  rw [hsm] at hcontra
  have h1 : Real.sqrt (((3/2 : ℚ) : ℝ)) = Real.sqrt (((1 : ℚ) : ℝ)) := by
    simpa using hcontra
  have h2 : ((3/2 : ℚ) : ℝ) = ((1 : ℚ) : ℝ) :=
    (Real.sqrt_inj (by norm_num) (by norm_num)).mp h1
  norm_num at h2

/-- Witness for the amended C3 theorem at the concrete three-instance image. -/
theorem c3_amended_witness :
    (0 : ℚ) < 1/2 ∧ (∃ p : Pix 1 8, sizeImg p.1 p.2 ≠ 0) ∧
    ((sortedAreas sizeImg).Sorted (· ≤ ·) ∧
     ((sortedAreas sizeImg : List ℕ) : Multiset ℕ) = instanceAreas sizeImg ∧
     evaluate_size sizeImg (1/2) =
       some (Real.sqrt ((amendedSizeMean sizeImg (1/2) : ℚ) : ℝ))) :=
  ⟨by norm_num, by decide, c3_amended sizeImg (1/2) (by norm_num) (by decide)⟩

/-- An all-background 2 by 2 label image. -/
def zeroImg22 : Img 2 2 := fun _ _ => 0

/-- An all-background 1 by 3 label image. -/
def zeroImg13 : Img 1 3 := fun _ _ => 0

/-- C7 counterexample: called on an empty (all-background) label image
the function does not fail fast: it is total — the area list is empty,
numpy's mean of the empty slice produces the NaN value (modeled none),
and that value is returned; no error is raised. -/
theorem c7_counterexample : evaluate_size zeroImg22 (1/2) = none := by
  have hsa : sortedAreas zeroImg22 = [] := by decide
  unfold evaluate_size sizeMean
  rw [hsa]
  simp

/-- C7 amended: on an all-background label image evaluate_size raises
nothing and silently returns the NaN value (modeled none) produced by
the mean of the empty area slice. -/
theorem c7_amended (img : Img h w) (ratio : ℚ) (hz : ∀ p : Pix h w, img p.1 p.2 = 0) :
    evaluate_size img ratio = none := by
  have hmax : maxV (labelI img) = 0 := maxV_labelI_zero img hz
  have hareas : sortedAreas img = [] := by
    unfold sortedAreas areasList
    rw [hmax]
    rfl
  unfold evaluate_size sizeMean
  rw [hareas]
  simp

/-- Witness for the amended C7 theorem at a concrete empty label image. -/
theorem c7_amended_witness :
    (∀ p : Pix 1 3, zeroImg13 p.1 p.2 = 0) ∧ evaluate_size zeroImg13 (1/3) = none :=
  ⟨by decide, c7_amended zeroImg13 (1/3) (by decide)⟩

/-! ### Instance post-processing (`prob_to_rles`, helper.py lines 127-140) -/

/-- Post-processing parameters read from the configuration collaborator. -/
structure PostConfig where
  threshold : ℚ
  segmentation : Bool
  remove_objects : Bool
  min_object_size : ℕ

/-- One labeling step with the 4-neighborhood, the default connectivity
of remove_small_objects. -/
def lstep4 (img : Img h w) : Pix h w → Pix h w → Prop := lstep adj4 img

instance (img : Img h w) : DecidableRel (lstep4 img) := by
  unfold lstep4; infer_instance

/-- The 0/1 image of a boolean mask. -/
def indB (m : Fin h → Fin w → Bool) : Img h w := fun i j => if m i j then 1 else 0

/-- The 4-connected component of a pixel within a boolean mask. -/
def comp4 (m : Fin h → Fin w → Bool) (p : Pix h w) : Finset (Pix h w) :=
  reach (lstep4 (indB m)) p

/-- remove_small_objects: zeroes every 4-connected component whose pixel
count is strictly below min_size, keeping components of size at least
min_size. -/
def removeSmall (minSize : ℕ) (m : Fin h → Fin w → Bool) : Fin h → Fin w → Bool :=
  fun i j => m i j && decide (minSize ≤ (comp4 m (i, j)).card)

/-- The thresholded foreground mask y > threshold. -/
def thrMask (thr : ℚ) (y : QImg h w) : Fin h → Fin w → Bool :=
  fun i j => decide (thr < y i j)

/-- The 0/1 mask of the pixels of `lab` equal to `v` (lab_img == i). -/
def eqImg (lab : Img h w) (v : ℕ) : Img h w := fun i j => if lab i j = v then 1 else 0

/-- The mask fed to labeling: thresholded, with small objects removed
when remove_objects is set. -/
def keptMask (cfg : PostConfig) (y : QImg h w) : Fin h → Fin w → Bool :=
  if cfg.remove_objects then removeSmall cfg.min_object_size (thrMask cfg.threshold y)
  else thrMask cfg.threshold y

/-- The connected-component labeling of the kept mask. -/
def baseLab (cfg : PostConfig) (y : QImg h w) : Img h w := labelI (indB (keptMask cfg y))

/-- The label image whose masks are encoded: the watershed split of the
base labeling when segmentation is set.  seg_ws draws fresh randomness,
so it enters the model as the function argument `segWs`. -/
def finalLab (cfg : PostConfig) (segWs : Img h w → Img h w) (y : QImg h w) : Img h w :=
  if cfg.segmentation then segWs (baseLab cfg y) else baseLab cfg y

/-- prob_to_rles: threshold the probability map, optionally drop small
objects, label, optionally watershed-split, then RLE-encode the pixel
mask of each label from 1 to the maximum label. -/
def prob_to_rles (cfg : PostConfig) (segWs : Img h w → Img h w) (y : QImg h w) :
    List (List ℕ) :=
  (List.range (maxV (finalLab cfg segWs y))).map
    (fun k => rle_encoding (flattenCM (eqImg (finalLab cfg segWs y) (k + 1))))

theorem le_maxV (img : Img h w) (p : Pix h w) : img p.1 p.2 ≤ maxV img := by
  have hne : (vals img).Nonempty := ⟨img p.1 p.2, (mem_vals _ _).mpr ⟨p, rfl⟩⟩
  unfold maxV
  rw [dif_pos hne]
  exact Finset.le_max' _ _ ((mem_vals _ _).mpr ⟨p, rfl⟩)

theorem coversAt_eqImg (lab : Img h w) (v n : ℕ) :
    coversAt (rle_encoding (flattenCM (eqImg lab v))) n ↔
      ∃ hn : n < w * h, lab (colPix ⟨n, hn⟩).1 (colPix ⟨n, hn⟩).2 = v := by
  rw [coversAt_rle_iff, length_flattenCM]
  constructor
  · rintro ⟨hn, hv⟩
    refine ⟨hn, ?_⟩
    rw [getD_flattenCM _ ⟨n, hn⟩] at hv
    unfold eqImg at hv
    by_cases hcase : lab (colPix ⟨n, hn⟩).1 (colPix ⟨n, hn⟩).2 = v
    · exact hcase
    · rw [if_neg hcase] at hv
      exact absurd hv (by omega)
  · rintro ⟨hn, hv⟩
    refine ⟨hn, ?_⟩
    rw [getD_flattenCM _ ⟨n, hn⟩]
    unfold eqImg
    rw [if_pos hv]

theorem length_prob_to_rles (cfg : PostConfig) (segWs : Img h w → Img h w)
    (y : QImg h w) :
    (prob_to_rles cfg segWs y).length = maxV (finalLab cfg segWs y) := by
  unfold prob_to_rles
  rw [List.length_map, List.length_range]

theorem prob_to_rles_getD (cfg : PostConfig) (segWs : Img h w → Img h w)
    (y : QImg h w) (i : ℕ) (hi : i < maxV (finalLab cfg segWs y)) :
    (prob_to_rles cfg segWs y).getD i [] =
      rle_encoding (flattenCM (eqImg (finalLab cfg segWs y) (i + 1))) := by
  unfold prob_to_rles
  rw [List.getD_eq_getElem?_getD, List.getElem?_map, List.getElem?_range hi]
  rfl

theorem coversAt_nil (n : ℕ) : ¬ coversAt [] n := by
  rintro ⟨r, hr, -⟩
  exact absurd hr (by simp [toPairs])

/-- C9: the instance masks encoded by the successive RLEs yielded by
prob_to_rles are pairwise disjoint for every configuration, probability
map and watershed result: the i-th yielded encoding covers a flat
position exactly when the final label image holds value i+1 there, and
a pixel holds at most one value. -/
theorem c9_rles_disjoint (cfg : PostConfig) (segWs : Img h w → Img h w)
    (y : QImg h w) (i j : ℕ) (hij : i ≠ j) (n : ℕ) :
    ¬ (coversAt ((prob_to_rles cfg segWs y).getD i []) n ∧
       coversAt ((prob_to_rles cfg segWs y).getD j []) n) := by
  rintro ⟨hci, hcj⟩
  by_cases hi : i < maxV (finalLab cfg segWs y)
  · by_cases hj : j < maxV (finalLab cfg segWs y)
    · rw [prob_to_rles_getD cfg segWs y i hi] at hci
      rw [prob_to_rles_getD cfg segWs y j hj] at hcj
      obtain ⟨hn, hvi⟩ := (coversAt_eqImg _ _ _).mp hci
      obtain ⟨hn2, hvj⟩ := (coversAt_eqImg _ _ _).mp hcj
      have heq : i + 1 = j + 1 := hvi.symm.trans hvj
      omega
    · rw [List.getD_eq_default _ _ (by rw [length_prob_to_rles]; omega)] at hcj
      exact coversAt_nil n hcj
  · rw [List.getD_eq_default _ _ (by rw [length_prob_to_rles]; omega)] at hci
    exact coversAt_nil n hci

/-- C4: with remove_objects enabled, every 4-connected component of the
thresholded mask whose area is strictly below min_object_size is
dropped before labeling, so none of its pixels is covered by any
yielded RLE (for any watershed stand-in that maps background to
background, as watershed with mask=image does); a component of area at
least min_object_size is retained by the removal step, and with
segmentation disabled each of its pixels is covered by a yielded RLE. -/
theorem c4_remove_small (cfg : PostConfig) (segWs : Img h w → Img h w)
    (y : QImg h w) (pS pL : Pix h w)
    (hro : cfg.remove_objects = true)
    (hseg : ∀ img : Img h w, ∀ q : Pix h w, img q.1 q.2 = 0 → segWs img q.1 q.2 = 0)
    (hS : thrMask cfg.threshold y pS.1 pS.2 = true ∧
          (comp4 (thrMask cfg.threshold y) pS).card < cfg.min_object_size)
    (hL : thrMask cfg.threshold y pL.1 pL.2 = true ∧
          cfg.min_object_size ≤ (comp4 (thrMask cfg.threshold y) pL).card) :
    (∀ r ∈ prob_to_rles cfg segWs y, ¬ coversAt r (colIdx pS)) ∧
    removeSmall cfg.min_object_size (thrMask cfg.threshold y) pL.1 pL.2 = true ∧
    (cfg.segmentation = false →
      ∃ r ∈ prob_to_rles cfg segWs y, coversAt r (colIdx pL)) := by
  have hkept : keptMask cfg y = removeSmall cfg.min_object_size (thrMask cfg.threshold y) := by
    unfold keptMask
    rw [hro]
    rfl
  refine ⟨?_, ?_, ?_⟩
  · intro r hr hcov
    obtain ⟨k, hk, rfl⟩ := List.mem_map.mp hr
    rw [List.mem_range] at hk
    obtain ⟨hn, hv⟩ := (coversAt_eqImg _ _ _).mp hcov
    rw [show colPix ⟨colIdx pS, hn⟩ = pS from colPix_colIdx pS] at hv
    have hm2 : keptMask cfg y pS.1 pS.2 = false := by
      rw [hkept]
      unfold removeSmall
      have hcard : (comp4 (thrMask cfg.threshold y) (pS.1, pS.2)).card <
          cfg.min_object_size := hS.2
      have hnot : ¬ (cfg.min_object_size ≤
          (comp4 (thrMask cfg.threshold y) (pS.1, pS.2)).card) := by omega
      simp [hnot]
    have hbase : baseLab cfg y pS.1 pS.2 = 0 := by
      unfold baseLab
      apply (labelI_eq_zero_iff _ _).mpr
      unfold indB
      rw [hm2]
      rfl
    have hfinal : finalLab cfg segWs y pS.1 pS.2 = 0 := by
      unfold finalLab
      by_cases hsg : cfg.segmentation
      · rw [if_pos hsg]
        exact hseg (baseLab cfg y) pS hbase
      · rw [if_neg hsg]
        exact hbase
    rw [hfinal] at hv
    omega
  · unfold removeSmall
    have hcard : cfg.min_object_size ≤
        (comp4 (thrMask cfg.threshold y) (pL.1, pL.2)).card := hL.2
    simp [hL.1, hcard]
  · intro hsg
    have hm2 : keptMask cfg y pL.1 pL.2 = true := by
      rw [hkept]
      unfold removeSmall
      have hcard : cfg.min_object_size ≤
          (comp4 (thrMask cfg.threshold y) (pL.1, pL.2)).card := hL.2
      simp [hL.1, hcard]
    have hind : indB (keptMask cfg y) pL.1 pL.2 ≠ 0 := by
      unfold indB
      rw [hm2]
      simp
    have hfinal : finalLab cfg segWs y = baseLab cfg y := by
      unfold finalLab
      rw [hsg]
      rfl
    have hpos : 1 ≤ baseLab cfg y pL.1 pL.2 := labelI_pos _ hind
    have hle : baseLab cfg y pL.1 pL.2 ≤ maxV (baseLab cfg y) := le_maxV _ pL
    refine ⟨rle_encoding (flattenCM (eqImg (finalLab cfg segWs y)
      (baseLab cfg y pL.1 pL.2 - 1 + 1))), ?_, ?_⟩
    · apply List.mem_map_of_mem
      rw [List.mem_range, hfinal]
      omega
    · rw [coversAt_eqImg]
      refine ⟨colIdx_lt pL, ?_⟩
      rw [show colPix ⟨colIdx pL, colIdx_lt pL⟩ = pL from colPix_colIdx pL, hfinal]
      omega

/-- Configuration with neither removal nor segmentation, threshold 1/2. -/
def cfgPlain : PostConfig := ⟨1/2, false, false, 0⟩

/-- Configuration with small-object removal at minimum size 2. -/
def cfgRemove : PostConfig := ⟨1/2, false, true, 2⟩

/-- A 1 by 3 probability map with foreground at both ends. -/
def probImg13 : QImg 1 3 := fun _ j => if j.val = 1 then 0 else 1

/-- A 1 by 4 probability map with a two-pixel and a one-pixel component. -/
def probImg14 : QImg 1 4 := fun _ j => if j.val = 2 then 0 else 1

/-- The boolean mask obtained by thresholding probImg14 at 1/2. -/
def mask14 : Fin 1 → Fin 4 → Bool := fun _ j => decide (j.val ≠ 2)

theorem thrMask_probImg14 : thrMask ((1 : ℚ)/2) probImg14 = mask14 := by
  funext i j
  fin_cases j <;> simp [thrMask, probImg14, mask14] <;> norm_num

/-- Witness for C9 at a concrete two-instance probability map. -/
theorem c9_rles_disjoint_witness :
    ¬ (coversAt ((prob_to_rles cfgPlain id probImg13).getD 0 []) 0 ∧
       coversAt ((prob_to_rles cfgPlain id probImg13).getD 1 []) 0) :=
  c9_rles_disjoint cfgPlain id probImg13 0 1 (by decide) 0

/-- Witness for C4: pixel (0,3) sits in a one-pixel component (dropped,
minimum size 2), pixel (0,0) in a two-pixel component (retained). -/
theorem c4_remove_small_witness :
    (∀ r ∈ prob_to_rles cfgRemove id probImg14,
      ¬ coversAt r (colIdx (((0 : Fin 1), (3 : Fin 4)) : Pix 1 4))) ∧
    removeSmall cfgRemove.min_object_size (thrMask cfgRemove.threshold probImg14)
      (0 : Fin 1) (0 : Fin 4) = true ∧
    (cfgRemove.segmentation = false →
      ∃ r ∈ prob_to_rles cfgRemove id probImg14,
        coversAt r (colIdx (((0 : Fin 1), (0 : Fin 4)) : Pix 1 4))) := by
  apply c4_remove_small cfgRemove id probImg14
    (((0 : Fin 1), (3 : Fin 4)) : Pix 1 4) (((0 : Fin 1), (0 : Fin 4)) : Pix 1 4)
    rfl (fun img q hq => hq)
  · constructor
    · show thrMask ((1 : ℚ)/2) probImg14 (0 : Fin 1) (3 : Fin 4) = true
      rw [thrMask_probImg14]
      decide
    · show (comp4 (thrMask ((1 : ℚ)/2) probImg14)
        (((0 : Fin 1), (3 : Fin 4)) : Pix 1 4)).card < 2
      rw [thrMask_probImg14]
      decide
  · constructor
    · show thrMask ((1 : ℚ)/2) probImg14 (0 : Fin 1) (0 : Fin 4) = true
      rw [thrMask_probImg14]
      decide
    · show 2 ≤ (comp4 (thrMask ((1 : ℚ)/2) probImg14)
        (((0 : Fin 1), (0 : Fin 4)) : Pix 1 4)).card
      rw [thrMask_probImg14]
      decide

/-! ### IoU metric (`iou_metric`, helper.py lines 48-104)

The source builds contingency counts with np.histogram2d and
np.histogram using bins = number of distinct values over each image's
own value range, then drops row 0 and column 0 as background. -/

/-- The bin numpy's histogram assigns to integer value `v` among `n`
equal-width bins over the data range [mn, mx]; a degenerate range is
widened by one half on each side, which sends the single value to the
middle bin.  Bin edges are exact rationals here, whereas numpy computes
them in float64; for the label magnitudes involved the two agree. -/
def binIdx (mn mx n v : ℕ) : ℕ :=
  if n = 0 then 0
  else if mx ≤ mn then n / 2
  else min ((v - mn) * n / (mx - mn)) (n - 1)

/-- Bin of a value of `img`, with the binning derived from the image's
own range and distinct-value count, as in
np.histogram(img, bins=len(np.unique(img))). -/
def binOf (img : Img h w) (v : ℕ) : ℕ :=
  binIdx (minV img) (maxV img) (uniqueCount img) v

/-- Cell (i, j) of np.histogram2d(labels, pred,
bins=(true_objects, pred_objects)). -/
def interBin (labels pred : Img h w) (i j : ℕ) : ℕ :=
  (Finset.univ.filter (fun p : Pix h w =>
    binOf labels (labels p.1 p.2) = i ∧ binOf pred (pred p.1 p.2) = j)).card

/-- Entry i of np.histogram(img, bins=uniqueCount img). -/
def areaBin (img : Img h w) (i : ℕ) : ℕ :=
  (Finset.univ.filter (fun p : Pix h w => binOf img (img p.1 p.2) = i)).card

/-- union = area_true + area_pred - intersection, per histogram cell. -/
def unionBin (labels pred : Img h w) (i j : ℕ) : ℚ :=
  (areaBin labels i : ℚ) + (areaBin pred j : ℚ) - (interBin labels pred i j : ℚ)

/-- IoU at sliced cell (i, j) — row i+1, column j+1 of the histograms,
after dropping the assumed-background row and column 0; a zero union is
floored to 1e-9 before dividing. -/
def iouCell (labels pred : Img h w) (i j : ℕ) : ℚ :=
  (interBin labels pred (i + 1) (j + 1) : ℚ) /
    (if unionBin labels pred (i + 1) (j + 1) = 0 then 1/1000000000
     else unionBin labels pred (i + 1) (j + 1))

/-- matches = iou > t at sliced cell (i, j). -/
def matchesAt (labels pred : Img h w) (t : ℚ) (i j : ℕ) : Prop :=
  t < iouCell labels pred i j

instance (labels pred : Img h w) (t : ℚ) (i j : ℕ) :
    Decidable (matchesAt labels pred t i j) := by
  unfold matchesAt; infer_instance

/-- true_positives: sliced rows (true instances) matching exactly one
sliced column. -/
def tpAt (labels pred : Img h w) (t : ℚ) : ℕ :=
  ((Finset.range (uniqueCount labels - 1)).filter (fun i =>
    ((Finset.range (uniqueCount pred - 1)).filter
      (fun j => matchesAt labels pred t i j)).card = 1)).card

/-- false_positives: sliced columns (predicted instances) matching no
sliced row. -/
def fpAt (labels pred : Img h w) (t : ℚ) : ℕ :=
  ((Finset.range (uniqueCount pred - 1)).filter (fun j =>
    ((Finset.range (uniqueCount labels - 1)).filter
      (fun i => matchesAt labels pred t i j)).card = 0)).card

/-- false_negatives: sliced rows matching no sliced column. -/
def fnAt (labels pred : Img h w) (t : ℚ) : ℕ :=
  ((Finset.range (uniqueCount labels - 1)).filter (fun i =>
    ((Finset.range (uniqueCount pred - 1)).filter
      (fun j => matchesAt labels pred t i j)).card = 0)).card

/-- precision at one threshold: tp / (tp + fp + fn), or 0 when the
denominator is 0. -/
def precAt (labels pred : Img h w) (t : ℚ) : ℚ :=
  if 0 < tpAt labels pred t + fpAt labels pred t + fnAt labels pred t then
    (tpAt labels pred t : ℚ) /
      ((tpAt labels pred t : ℚ) + (fpAt labels pred t : ℚ) + (fnAt labels pred t : ℚ))
  else 0

/-- The ten IoU thresholds of np.arange(0.5, 1.0, 0.05). -/
def thresholds : List ℚ := (List.range 10).map (fun k : ℕ => 1/2 + (k : ℚ)/20)

/-- The core of iou_metric once both label images are derived: the
contingency histograms, background slicing, IoU matrix, threshold sweep
and final mean. -/
def iou_core (labels pred : Img h w) : ℚ :=
  (thresholds.map (precAt labels pred)).sum / 10

/-- The 0/1 image of input > threshold, to which label() is applied. -/
def maskOf (thr : ℚ) (x : Img h w) : Img h w :=
  fun i j => if thr < ((x i j : ℕ) : ℚ) then 1 else 0

/-- label(input > threshold). -/
def labelQ (thr : ℚ) (x : Img h w) : Img h w := labelI (maskOf thr x)

/-- iou_metric on label-image inputs (the domain of the claims): the
predicted input is always thresholded and relabeled; the truth is used
as-is when instance_level is set, else thresholded and relabeled too. -/
def iou_metric (thr : ℚ) (y_pred_in y_true_in : Img h w) (instance_level : Bool) : ℚ :=
  iou_core (if instance_level then y_true_in else labelQ thr y_true_in)
    (labelQ thr y_pred_in)

/-! ### The claim-side score (spec wording, section 4.5) -/

/-- Pixel count of the true instance `t` against predicted instance `p`. -/
def interCnt (labels pred : Img h w) (t p : ℕ) : ℕ :=
  (Finset.univ.filter (fun q : Pix h w =>
    labels q.1 q.2 = t ∧ pred q.1 q.2 = p)).card

/-- IoU of true instance t and predicted instance p, by pixel counting. -/
def specIoU (labels pred : Img h w) (t p : ℕ) : ℚ :=
  (interCnt labels pred t p : ℚ) /
    ((areaCnt labels t : ℚ) + (areaCnt pred p : ℚ) - (interCnt labels pred t p : ℚ))

/-- Claim-side true positives: true instances whose IoU exceeds the
threshold against exactly one predicted instance. -/
def specTP (T P : ℕ) (labels pred : Img h w) (t : ℚ) : ℕ :=
  ((Finset.Icc 1 T).filter (fun a =>
    ((Finset.Icc 1 P).filter (fun b => t < specIoU labels pred a b)).card = 1)).card

/-- Claim-side false positives: predicted instances exceeding the
threshold against zero true instances. -/
def specFP (T P : ℕ) (labels pred : Img h w) (t : ℚ) : ℕ :=
  ((Finset.Icc 1 P).filter (fun b =>
    ((Finset.Icc 1 T).filter (fun a => t < specIoU labels pred a b)).card = 0)).card

/-- Claim-side false negatives: true instances exceeding the threshold
against zero predicted instances. -/
def specFN (T P : ℕ) (labels pred : Img h w) (t : ℚ) : ℕ :=
  ((Finset.Icc 1 T).filter (fun a =>
    ((Finset.Icc 1 P).filter (fun b => t < specIoU labels pred a b)).card = 0)).card

/-- Claim-side precision at one threshold. -/
def specPrec (T P : ℕ) (labels pred : Img h w) (t : ℚ) : ℚ :=
  if 0 < specTP T P labels pred t + specFP T P labels pred t + specFN T P labels pred t then
    (specTP T P labels pred t : ℚ) /
      ((specTP T P labels pred t : ℚ) + (specFP T P labels pred t : ℚ) +
        (specFN T P labels pred t : ℚ))
  else 0

/-- Claim-side score: the mean of the claim-side precision over the ten
thresholds, for T true and P predicted instances. -/
def claimScore (T P : ℕ) (labels pred : Img h w) : ℚ :=
  (thresholds.map (specPrec T P labels pred)).sum / 10

/-- A label image with values exactly {0, ..., T}: contiguous labels
with background present, as produced by connected-component labeling of
a mask with at least one background pixel. -/
def Canonical (img : Img h w) (T : ℕ) : Prop :=
  (∀ p : Pix h w, img p.1 p.2 ≤ T) ∧ ∀ k, k ≤ T → ∃ p : Pix h w, img p.1 p.2 = k

instance (img : Img h w) (T : ℕ) : Decidable (Canonical img T) := by
  unfold Canonical; infer_instance

theorem vals_canonical {img : Img h w} {T : ℕ} (hc : Canonical img T) :
    vals img = Finset.range (T + 1) := by
  ext v
  rw [mem_vals, Finset.mem_range]
  constructor
  · rintro ⟨p, rfl⟩
    exact Nat.lt_succ_of_le (hc.1 p)
  · intro hv
    exact hc.2 v (by omega)

theorem uniqueCount_canonical {img : Img h w} {T : ℕ} (hc : Canonical img T) :
    uniqueCount img = T + 1 := by
  unfold uniqueCount
  rw [vals_canonical hc]
  exact Finset.card_range _

theorem minV_canonical {img : Img h w} {T : ℕ} (hc : Canonical img T) :
    minV img = 0 := by
  have hv := vals_canonical hc
  have hne : (vals img).Nonempty := by
    rw [hv]
    exact ⟨0, Finset.mem_range.mpr (by omega)⟩
  unfold minV
  rw [dif_pos hne]
  have h0 : (0 : ℕ) ∈ vals img := by
    rw [hv]
    exact Finset.mem_range.mpr (by omega)
  exact Nat.le_antisymm (Finset.min'_le _ _ h0) (Nat.zero_le _)

theorem maxV_canonical {img : Img h w} {T : ℕ} (hc : Canonical img T) :
    maxV img = T := by
  have hv := vals_canonical hc
  have hne : (vals img).Nonempty := by
    rw [hv]
    exact ⟨0, Finset.mem_range.mpr (by omega)⟩
  unfold maxV
  rw [dif_pos hne]
  apply Nat.le_antisymm
  · apply Finset.max'_le
    intro v hvm
    rw [hv, Finset.mem_range] at hvm
    omega
  · apply Finset.le_max'
    rw [hv]
    exact Finset.mem_range.mpr (by omega)

theorem binOf_canonical {img : Img h w} {T : ℕ} (hc : Canonical img T)
    {v : ℕ} (hv : v ≤ T) : binOf img v = v := by
  unfold binOf binIdx
  rw [uniqueCount_canonical hc, minV_canonical hc, maxV_canonical hc]
  rw [if_neg (by omega : ¬ (T + 1 = 0))]
  rcases Nat.eq_zero_or_pos T with rfl | hT
  · rw [if_pos (le_refl 0)]
    omega
  · rw [if_neg (by omega : ¬ (T ≤ 0))]
    simp only [Nat.sub_zero, Nat.add_sub_cancel]
    rcases Nat.lt_or_ge v T with hvT | hvT
    · have hdiv : v * (T + 1) / T = v := by
        have h1 : v * (T + 1) = T * v + v := by ring
        rw [h1, Nat.mul_add_div hT, Nat.div_eq_of_lt hvT]
        omega
      rw [hdiv]
      omega
    · have hvT2 : v = T := by omega
      subst hvT2
      have hdiv : v * (v + 1) / v = v + 1 := Nat.mul_div_cancel_left _ hT
      rw [hdiv]
      omega

theorem interBin_le_areaT (labels pred : Img h w) (i j : ℕ) :
    interBin labels pred i j ≤ areaBin labels i := by
  apply Finset.card_le_card
  intro p hp
  rw [Finset.mem_filter] at hp ⊢
  exact ⟨hp.1, hp.2.1⟩

theorem interBin_le_areaP (labels pred : Img h w) (i j : ℕ) :
    interBin labels pred i j ≤ areaBin pred j := by
  apply Finset.card_le_card
  intro p hp
  rw [Finset.mem_filter] at hp ⊢
  exact ⟨hp.1, hp.2.2⟩

/-- C6: the divisor of every sliced IoU cell is positive — a zero union
is floored to the positive constant 1e-9, a nonzero union is positive —
so no division by zero occurs for any pair of label-image inputs; and a
cell whose union is zero necessarily has zero intersection and IoU 0. -/
theorem c6_division_safe (labels pred : Img h w) (i j : ℕ) :
    (0 < (if unionBin labels pred (i + 1) (j + 1) = 0 then (1 : ℚ)/1000000000
          else unionBin labels pred (i + 1) (j + 1))) ∧
    (unionBin labels pred (i + 1) (j + 1) = 0 →
      interBin labels pred (i + 1) (j + 1) = 0 ∧ iouCell labels pred i j = 0) := by
  have hca := interBin_le_areaT labels pred (i + 1) (j + 1)
  have hcb := interBin_le_areaP labels pred (i + 1) (j + 1)
  have hzero : unionBin labels pred (i + 1) (j + 1) = 0 →
      interBin labels pred (i + 1) (j + 1) = 0 := by
    intro hu
    unfold unionBin at hu
    have hcast : ((areaBin labels (i + 1) + areaBin pred (j + 1) : ℕ) : ℚ) =
        ((interBin labels pred (i + 1) (j + 1) : ℕ) : ℚ) := by
      push_cast
      linarith
    have hnat : areaBin labels (i + 1) + areaBin pred (j + 1) =
        interBin labels pred (i + 1) (j + 1) := Nat.cast_injective hcast
    omega
  constructor
  · by_cases hu : unionBin labels pred (i + 1) (j + 1) = 0
    · rw [if_pos hu]
      norm_num
    · rw [if_neg hu]
      have hnn : (0 : ℚ) ≤ unionBin labels pred (i + 1) (j + 1) := by
        unfold unionBin
        have : ((interBin labels pred (i + 1) (j + 1) : ℕ) : ℚ) ≤
            ((areaBin labels (i + 1) : ℕ) : ℚ) := by
          exact_mod_cast hca
        have hb0 : (0 : ℚ) ≤ ((areaBin pred (j + 1) : ℕ) : ℚ) := by positivity
        linarith
      rcases lt_or_eq_of_le hnn with hlt | heq
      · exact hlt
      · exact absurd heq.symm hu
  · intro hu
    refine ⟨hzero hu, ?_⟩
    unfold iouCell
    rw [hzero hu]
    norm_num

/-- A 1 by 3 label image with the noncontiguous values {0, 1, 5}; numpy
bins them into three equal-width bins over [0, 5], leaving the middle
bin empty on both axes, which produces a zero-union cell. -/
def gapImg : Img 1 3 := fun _ j => [0, 1, 5].getD j.val 0

/-- Witness for C6 at a concrete zero-union cell: the sliced cell (0, 0)
of gapImg against itself has union 0, intersection 0 and IoU 0, and its
floored divisor is positive. -/
theorem c6_division_safe_witness :
    unionBin gapImg gapImg 1 1 = 0 ∧
    interBin gapImg gapImg 1 1 = 0 ∧
    iouCell gapImg gapImg 0 0 = 0 ∧
    (0 < (if unionBin gapImg gapImg (0 + 1) (0 + 1) = 0 then (1 : ℚ)/1000000000
          else unionBin gapImg gapImg (0 + 1) (0 + 1))) := by
  have ha : areaBin gapImg 1 = 0 := by decide
  have hc : interBin gapImg gapImg 1 1 = 0 := by decide
  have hu : unionBin gapImg gapImg 1 1 = 0 := by
    unfold unionBin
    rw [ha, hc]
    norm_num
  have hmain := c6_division_safe gapImg gapImg 0 0
  exact ⟨hu, (hmain.2 hu).1, (hmain.2 hu).2, hmain.1⟩

theorem areaBin_eq_areaCnt {img : Img h w} {T : ℕ} (hc : Canonical img T) (i : ℕ) :
    areaBin img i = areaCnt img i := by
  unfold areaBin areaCnt
  congr 1
  ext q
  simp only [Finset.mem_filter, Finset.mem_univ, true_and]
  rw [binOf_canonical hc (hc.1 q)]

theorem interBin_eq_interCnt {labels pred : Img h w} {T P : ℕ}
    (hl : Canonical labels T) (hp : Canonical pred P) (i j : ℕ) :
    interBin labels pred i j = interCnt labels pred i j := by
  unfold interBin interCnt
  congr 1
  ext q
  simp only [Finset.mem_filter, Finset.mem_univ, true_and]
  rw [binOf_canonical hl (hl.1 q), binOf_canonical hp (hp.1 q)]

theorem interCnt_le_areaT (labels pred : Img h w) (t p : ℕ) :
    interCnt labels pred t p ≤ areaCnt labels t := by
  apply Finset.card_le_card
  intro q hq
  rw [Finset.mem_filter] at hq ⊢
  exact ⟨hq.1, hq.2.1⟩

theorem interCnt_le_areaP (labels pred : Img h w) (t p : ℕ) :
    interCnt labels pred t p ≤ areaCnt pred p := by
  apply Finset.card_le_card
  intro q hq
  rw [Finset.mem_filter] at hq ⊢
  exact ⟨hq.1, hq.2.2⟩

theorem iouCell_eq_specIoU {labels pred : Img h w} {T P : ℕ}
    (hl : Canonical labels T) (hp : Canonical pred P) (i j : ℕ) :
    iouCell labels pred i j = specIoU labels pred (i + 1) (j + 1) := by
  unfold iouCell specIoU unionBin
  rw [interBin_eq_interCnt hl hp, areaBin_eq_areaCnt hl, areaBin_eq_areaCnt hp]
  by_cases hu : (areaCnt labels (i + 1) : ℚ) + (areaCnt pred (j + 1) : ℚ) -
      (interCnt labels pred (i + 1) (j + 1) : ℚ) = 0
  · rw [if_pos hu]
    have hca := interCnt_le_areaT labels pred (i + 1) (j + 1)
    have hcb := interCnt_le_areaP labels pred (i + 1) (j + 1)
    have hcast : ((areaCnt labels (i + 1) + areaCnt pred (j + 1) : ℕ) : ℚ) =
        ((interCnt labels pred (i + 1) (j + 1) : ℕ) : ℚ) := by
      push_cast
      linarith
    have hnat : areaCnt labels (i + 1) + areaCnt pred (j + 1) =
        interCnt labels pred (i + 1) (j + 1) := Nat.cast_injective hcast
    have hc0 : interCnt labels pred (i + 1) (j + 1) = 0 := by omega
    rw [hc0]
    norm_num
  · rw [if_neg hu]

theorem card_filter_range_shift (T : ℕ) (pr : ℕ → Prop) [DecidablePred pr] :
    ((Finset.range T).filter (fun i => pr (i + 1))).card =
      ((Finset.Icc 1 T).filter pr).card := by
  apply Finset.card_bij (fun i _ => i + 1)
  · intro a ha
    rw [Finset.mem_filter, Finset.mem_range] at ha
    rw [Finset.mem_filter, Finset.mem_Icc]
    exact ⟨⟨by omega, by omega⟩, ha.2⟩
  · intro a ha b hb hab
    omega
  · intro b hb
    rw [Finset.mem_filter, Finset.mem_Icc] at hb
    refine ⟨b - 1, ?_, by omega⟩
    rw [Finset.mem_filter, Finset.mem_range]
    constructor
    · omega
    · have hb1 : b - 1 + 1 = b := by omega
      rw [hb1]
      exact hb.2

theorem tpAt_eq_specTP {labels pred : Img h w} {T P : ℕ}
    (hl : Canonical labels T) (hp : Canonical pred P) (t : ℚ) :
    tpAt labels pred t = specTP T P labels pred t := by
  unfold tpAt specTP
  rw [uniqueCount_canonical hl, uniqueCount_canonical hp]
  simp only [Nat.add_sub_cancel]
  have hinner : ∀ i : ℕ,
      ((Finset.range P).filter (fun j => matchesAt labels pred t i j)).card =
        ((Finset.Icc 1 P).filter (fun b => t < specIoU labels pred (i + 1) b)).card := by
    intro i
    rw [← card_filter_range_shift P (fun b => t < specIoU labels pred (i + 1) b)]
    congr 1
    apply Finset.filter_congr
    intro j hj
    unfold matchesAt
    rw [iouCell_eq_specIoU hl hp]
  have houter : ((Finset.range T).filter (fun i =>
      ((Finset.range P).filter (fun j => matchesAt labels pred t i j)).card = 1)) =
      ((Finset.range T).filter (fun i =>
      ((Finset.Icc 1 P).filter (fun b => t < specIoU labels pred (i + 1) b)).card = 1)) := by
    apply Finset.filter_congr
    intro i hi
    rw [hinner i]
  rw [houter]
  exact card_filter_range_shift T (fun a =>
    ((Finset.Icc 1 P).filter (fun b => t < specIoU labels pred a b)).card = 1)

theorem fnAt_eq_specFN {labels pred : Img h w} {T P : ℕ}
    (hl : Canonical labels T) (hp : Canonical pred P) (t : ℚ) :
    fnAt labels pred t = specFN T P labels pred t := by
  unfold fnAt specFN
  rw [uniqueCount_canonical hl, uniqueCount_canonical hp]
  simp only [Nat.add_sub_cancel]
  have hinner : ∀ i : ℕ,
      ((Finset.range P).filter (fun j => matchesAt labels pred t i j)).card =
        ((Finset.Icc 1 P).filter (fun b => t < specIoU labels pred (i + 1) b)).card := by
    intro i
    rw [← card_filter_range_shift P (fun b => t < specIoU labels pred (i + 1) b)]
    congr 1
    apply Finset.filter_congr
    intro j hj
    unfold matchesAt
    rw [iouCell_eq_specIoU hl hp]
  have houter : ((Finset.range T).filter (fun i =>
      ((Finset.range P).filter (fun j => matchesAt labels pred t i j)).card = 0)) =
      ((Finset.range T).filter (fun i =>
      ((Finset.Icc 1 P).filter (fun b => t < specIoU labels pred (i + 1) b)).card = 0)) := by
    apply Finset.filter_congr
    intro i hi
    rw [hinner i]
  rw [houter]
  exact card_filter_range_shift T (fun a =>
    ((Finset.Icc 1 P).filter (fun b => t < specIoU labels pred a b)).card = 0)

theorem fpAt_eq_specFP {labels pred : Img h w} {T P : ℕ}
    (hl : Canonical labels T) (hp : Canonical pred P) (t : ℚ) :
    fpAt labels pred t = specFP T P labels pred t := by
  unfold fpAt specFP
  rw [uniqueCount_canonical hl, uniqueCount_canonical hp]
  simp only [Nat.add_sub_cancel]
  have hinner : ∀ j : ℕ,
      ((Finset.range T).filter (fun i => matchesAt labels pred t i j)).card =
        ((Finset.Icc 1 T).filter (fun a => t < specIoU labels pred a (j + 1))).card := by
    intro j
    rw [← card_filter_range_shift T (fun a => t < specIoU labels pred a (j + 1))]
    congr 1
    apply Finset.filter_congr
    intro i hi
    unfold matchesAt
    rw [iouCell_eq_specIoU hl hp]
  have houter : ((Finset.range P).filter (fun j =>
      ((Finset.range T).filter (fun i => matchesAt labels pred t i j)).card = 0)) =
      ((Finset.range P).filter (fun j =>
      ((Finset.Icc 1 T).filter (fun a => t < specIoU labels pred a (j + 1))).card = 0)) := by
    apply Finset.filter_congr
    intro j hj
    rw [hinner j]
  rw [houter]
  exact card_filter_range_shift P (fun b =>
    ((Finset.Icc 1 T).filter (fun a => t < specIoU labels pred a b)).card = 0)

theorem precAt_eq_specPrec {labels pred : Img h w} {T P : ℕ}
    (hl : Canonical labels T) (hp : Canonical pred P) (t : ℚ) :
    precAt labels pred t = specPrec T P labels pred t := by
  unfold precAt specPrec
  rw [tpAt_eq_specTP hl hp, fpAt_eq_specFP hl hp, fnAt_eq_specFN hl hp]

theorem iou_core_eq_claimScore (labels pred : Img h w) (T P : ℕ)
    (hl : Canonical labels T) (hp : Canonical pred P) :
    iou_core labels pred = claimScore T P labels pred := by
  unfold iou_core claimScore
  have hmap : thresholds.map (precAt labels pred) =
      thresholds.map (specPrec T P labels pred) :=
    List.map_congr_left (fun t _ => precAt_eq_specPrec hl hp t)
  rw [hmap]

theorem interCnt_self (X : Img h w) (t p : ℕ) :
    interCnt X X t p = if t = p then areaCnt X t else 0 := by
  by_cases htp : t = p
  · subst htp
    rw [if_pos rfl]
    unfold interCnt areaCnt
    congr 1
    ext q
    simp only [Finset.mem_filter, Finset.mem_univ, true_and, and_self]
  · rw [if_neg htp]
    unfold interCnt
    rw [Finset.card_eq_zero]
    apply Finset.filter_eq_empty_iff.mpr
    intro q hq hcon
    exact htp (hcon.1.symm.trans hcon.2)

theorem areaCnt_pos_of_surj {X : Img h w} {t : ℕ}
    (hex : ∃ q : Pix h w, X q.1 q.2 = t) : 0 < areaCnt X t := by
  obtain ⟨q, hq⟩ := hex
  unfold areaCnt
  exact Finset.card_pos.mpr ⟨q, Finset.mem_filter.mpr ⟨Finset.mem_univ q, hq⟩⟩

theorem specIoU_self {X : Img h w} {t p : ℕ}
    (hat : 0 < areaCnt X t) : specIoU X X t p = if t = p then 1 else 0 := by
  unfold specIoU
  rw [interCnt_self]
  by_cases htp : t = p
  · subst htp
    rw [if_pos rfl, if_pos rfl]
    have ha : ((areaCnt X t : ℕ) : ℚ) ≠ 0 := by
      exact_mod_cast Nat.pos_iff_ne_zero.mp hat
    rw [show (areaCnt X t : ℚ) + (areaCnt X t : ℚ) - (areaCnt X t : ℚ) =
      (areaCnt X t : ℚ) from by ring]
    exact div_self ha
  · rw [if_neg htp, if_neg htp]
    norm_num

theorem thresholds_bounds {t : ℚ} (ht : t ∈ thresholds) : 0 ≤ t ∧ t < 1 := by
  unfold thresholds at ht
  obtain ⟨k, hk, rfl⟩ := List.mem_map.mp ht
  rw [List.mem_range] at hk
  have hk9 : (k : ℚ) ≤ 9 := by exact_mod_cast Nat.lt_succ_iff.mp hk
  have hk0 : (0 : ℚ) ≤ (k : ℚ) := Nat.cast_nonneg k
  constructor
  · linarith
  · linarith

theorem sum_map_ones {α : Type} (l : List α) (f : α → ℚ)
    (hf : ∀ x ∈ l, f x = 1) : (l.map f).sum = (l.length : ℚ) := by
  induction l with
  | nil => simp
  | cons a tl ih =>
    rw [List.map_cons, List.sum_cons, hf a (List.mem_cons_self a tl),
      ih (fun x hx => hf x (List.mem_cons_of_mem a hx)), List.length_cons]
    push_cast
    ring

theorem claimScore_self (X : Img h w) (T : ℕ)
    (hsurj : ∀ k, 1 ≤ k → k ≤ T → ∃ q : Pix h w, X q.1 q.2 = k) (hT : 1 ≤ T) :
    claimScore T T X X = 1 := by
  have hpos : ∀ k ∈ Finset.Icc 1 T, 0 < areaCnt X k := by
    intro k hk
    rw [Finset.mem_Icc] at hk
    exact areaCnt_pos_of_surj (hsurj k hk.1 hk.2)
  have hrow : ∀ t ∈ thresholds, ∀ a ∈ Finset.Icc 1 T,
      (Finset.Icc 1 T).filter (fun b => t < specIoU X X a b) = {a} := by
    intro t ht a ha
    obtain ⟨ht0, ht1⟩ := thresholds_bounds ht
    ext b
    rw [Finset.mem_filter, Finset.mem_singleton]
    constructor
    · rintro ⟨hb, hlt⟩
      by_contra hne
      rw [specIoU_self (hpos a ha), if_neg (fun hc => hne hc.symm)] at hlt
      linarith
    · rintro rfl
      refine ⟨ha, ?_⟩
      rw [specIoU_self (hpos b ha), if_pos rfl]
      exact ht1
  have hcol : ∀ t ∈ thresholds, ∀ b ∈ Finset.Icc 1 T,
      (Finset.Icc 1 T).filter (fun a => t < specIoU X X a b) = {b} := by
    intro t ht b hb
    obtain ⟨ht0, ht1⟩ := thresholds_bounds ht
    ext a
    rw [Finset.mem_filter, Finset.mem_singleton]
    constructor
    · rintro ⟨ha, hlt⟩
      by_contra hne
      rw [specIoU_self (hpos a ha), if_neg hne] at hlt
      linarith
    · rintro rfl
      refine ⟨hb, ?_⟩
      rw [specIoU_self (hpos a hb), if_pos rfl]
      exact ht1
  have hprec : ∀ t ∈ thresholds, specPrec T T X X t = 1 := by
    intro t ht
    have htp : specTP T T X X t = T := by
      unfold specTP
      have hall : (Finset.Icc 1 T).filter (fun a =>
          ((Finset.Icc 1 T).filter (fun b => t < specIoU X X a b)).card = 1) =
          Finset.Icc 1 T := by
        apply Finset.filter_true_of_mem
        intro a ha
        rw [hrow t ht a ha]
        exact Finset.card_singleton a
      rw [hall, Nat.card_Icc]
      omega
    have hfp : specFP T T X X t = 0 := by
      unfold specFP
      rw [Finset.card_eq_zero]
      apply Finset.filter_eq_empty_iff.mpr
      intro b hb hcon
      rw [hcol t ht b hb, Finset.card_singleton] at hcon
      omega
    have hfn : specFN T T X X t = 0 := by
      unfold specFN
      rw [Finset.card_eq_zero]
      apply Finset.filter_eq_empty_iff.mpr
      intro a ha hcon
      rw [hrow t ht a ha, Finset.card_singleton] at hcon
      omega
    unfold specPrec
    rw [htp, hfp, hfn]
    rw [if_pos (by omega)]
    have hT0 : ((T : ℕ) : ℚ) ≠ 0 := by
      exact_mod_cast Nat.pos_iff_ne_zero.mp hT
    push_cast
    rw [add_zero, add_zero]
    exact div_self hT0
  unfold claimScore
  rw [sum_map_ones thresholds _ hprec]
  have hlen : ((thresholds.length : ℕ) : ℚ) = 10 := by
    norm_num [thresholds]
  rw [hlen]
  norm_num

theorem sum_map_zeros {α : Type} (l : List α) (f : α → ℚ)
    (hf : ∀ x ∈ l, f x = 0) : (l.map f).sum = 0 := by
  induction l with
  | nil => simp
  | cons a tl ih =>
    rw [List.map_cons, List.sum_cons, hf a (List.mem_cons_self a tl),
      ih (fun x hx => hf x (List.mem_cons_of_mem a hx))]
    ring

theorem iou_core_zero_of_single {labels pred : Img h w}
    (hl1 : uniqueCount labels = 1) (hp1 : uniqueCount pred = 1) :
    iou_core labels pred = 0 := by
  have hprec : ∀ t ∈ thresholds, precAt labels pred t = 0 := by
    intro t _
    have htp : tpAt labels pred t = 0 := by
      unfold tpAt
      rw [hl1]
      simp
    have hfp : fpAt labels pred t = 0 := by
      unfold fpAt
      rw [hp1]
      simp
    have hfn : fnAt labels pred t = 0 := by
      unfold fnAt
      rw [hl1]
      simp
    unfold precAt
    rw [htp, hfp, hfn]
    simp
  unfold iou_core
  rw [sum_map_zeros thresholds _ hprec]
  norm_num

/-- C1 amended: on label images in the canonical form produced by the
labeling step — contiguous labels 0..T and 0..P with background 0
present — iou_metric computes, at each of the ten thresholds 0.50,
0.55, ..., 0.95, true_positive, false_positive and false_negative by
the claim's matching rule (IoU strictly above the threshold) on the
exact per-instance IoU, precision as tp/(tp+fp+fn) or 0 when the
denominator is 0, and returns the mean over the ten thresholds.
Without background present the histogram binning and the background
slicing miscount, and the claim fails (see the counterexample). -/
theorem c1_iou_metric_formula (thr : ℚ) (predIn truth : Img h w) (T P : ℕ)
    (hl : Canonical truth T) (hp : Canonical (labelQ thr predIn) P) :
    iou_metric thr predIn truth true = claimScore T P truth (labelQ thr predIn) := by
  have h1 : iou_metric thr predIn truth true =
      iou_core truth (labelQ thr predIn) := rfl
  rw [h1]
  exact iou_core_eq_claimScore _ _ T P hl hp

/-- A 1 by 2 all-foreground label image: one instance, no background. -/
def fullImg : Img 1 2 := fun _ _ => 1

/-- C1 counterexample: on the all-foreground one-instance label image
(T = P = 1, perfect overlap) the claim's formula gives tp = 1, fp =
fn = 0 and precision 1 at every threshold, hence mean 1; the code
slices away its single histogram row and column as presumed background
and returns 0. -/
theorem c1_counterexample :
    iou_metric (1/2) fullImg fullImg true ≠
      claimScore 1 1 fullImg (labelQ (1/2) fullImg) := by
  have hmask : maskOf (1/2) fullImg = fullImg := by
    funext i j
    unfold maskOf fullImg
    norm_num
  have hlab : labelI fullImg = fullImg := by decide
  have hlq : labelQ (1/2) fullImg = fullImg := by
    unfold labelQ
    rw [hmask, hlab]
  have hu : uniqueCount fullImg = 1 := by decide
  have hlhs : iou_metric (1/2) fullImg fullImg true = 0 := by
    have h1 : iou_metric (1/2) fullImg fullImg true =
        iou_core fullImg (labelQ (1/2) fullImg) := rfl
    rw [h1, hlq]
    exact iou_core_zero_of_single hu hu
  have hrhs : claimScore 1 1 fullImg (labelQ (1/2) fullImg) = 1 := by
    rw [hlq]
    apply claimScore_self fullImg 1
    · intro k hk1 hk2
      have hk : k = 1 := by omega
      subst hk
      exact ⟨((0 : Fin 1), (0 : Fin 2)), rfl⟩
    · exact le_refl 1
  intro hc
  rw [hlhs, hrhs] at hc
  norm_num at hc

/-- A 1 by 2 canonical label image: background pixel then one instance. -/
def pairImg : Img 1 2 := fun _ j => j.val

/-- Witness for the amended C1 theorem at a concrete canonical pair. -/
theorem c1_iou_metric_formula_witness :
    Canonical pairImg 1 ∧ Canonical (labelQ (1/2) pairImg) 1 ∧
    iou_metric (1/2) pairImg pairImg true =
      claimScore 1 1 pairImg (labelQ (1/2) pairImg) := by
  have hmask : maskOf (1/2) pairImg = pairImg := by
    funext i j
    fin_cases j <;> (unfold maskOf pairImg) <;> norm_num
  have hlab : labelI pairImg = pairImg := by decide
  have hlq : labelQ (1/2) pairImg = pairImg := by
    unfold labelQ
    rw [hmask, hlab]
  have hc1 : Canonical pairImg 1 := by decide
  have hc2 : Canonical (labelQ (1/2) pairImg) 1 := by
    rw [hlq]
    exact hc1
  exact ⟨hc1, hc2, c1_iou_metric_formula (1/2) pairImg pairImg 1 1 hc1 hc2⟩

theorem labelI_canonical (img : Img h w) (hbg2 : ∃ p : Pix h w, img p.1 p.2 = 0) :
    Canonical (labelI img) (numComponents img) := by
  constructor
  · exact fun p => labelI_le_numComponents img p
  · intro k hk
    rcases Nat.eq_zero_or_pos k with rfl | hk1
    · obtain ⟨p, hp⟩ := hbg2
      exact ⟨p, (labelI_eq_zero_iff img p).mpr hp⟩
    · obtain ⟨q, -, hq⟩ := exists_pix_label img (Finset.mem_Icc.mpr ⟨hk1, hk⟩)
      exact ⟨q, hq⟩

/-- C5 amended: instance-level self-comparison scores exactly 1 when
the truth label image has a background pixel, a foreground pixel, and
equals the connected-component labeling of its own thresholded
foreground (so relabeling the identical predicted input reproduces it
exactly); the all-foreground case fails (see the counterexample). -/
theorem c5_selfmatch (thr : ℚ) (truth : Img h w)
    (hfix : labelQ thr truth = truth)
    (hbg : ∃ p : Pix h w, truth p.1 p.2 = 0)
    (hfg : ∃ p : Pix h w, truth p.1 p.2 ≠ 0) :
    iou_metric thr truth truth true = 1 := by
  have hbgm : ∃ p : Pix h w, maskOf thr truth p.1 p.2 = 0 := by
    obtain ⟨p, hp⟩ := hbg
    refine ⟨p, ?_⟩
    have h0 : labelQ thr truth p.1 p.2 = 0 := by
      rw [congrFun (congrFun hfix p.1) p.2]
      exact hp
    exact (labelI_eq_zero_iff (maskOf thr truth) p).mp h0
  have hcan : Canonical truth (numComponents (maskOf thr truth)) := by
    have hcl := labelI_canonical (maskOf thr truth) hbgm
    have heq : labelI (maskOf thr truth) = truth := hfix
    rwa [heq] at hcl
  have hfgm : ∃ p : Pix h w, maskOf thr truth p.1 p.2 ≠ 0 := by
    obtain ⟨q, hq⟩ := hfg
    refine ⟨q, fun hm0 => ?_⟩
    have h0 : labelQ thr truth q.1 q.2 = 0 :=
      (labelI_eq_zero_iff (maskOf thr truth) q).mpr hm0
    have h1 : labelQ thr truth q.1 q.2 = truth q.1 q.2 :=
      congrFun (congrFun hfix q.1) q.2
    exact hq (h1.symm.trans h0)
  have hT1 : 1 ≤ numComponents (maskOf thr truth) := numComponents_pos _ hfgm
  have h1 : iou_metric thr truth truth true =
      iou_core truth (labelQ thr truth) := rfl
  rw [h1, hfix, iou_core_eq_claimScore truth truth _ _ hcan hcan]
  exact claimScore_self truth _ (fun k _ hk2 => hcan.2 k hk2) hT1

/-- A 1 by 1 all-foreground label image. -/
def oneImg : Img 1 1 := fun _ _ => 1

/-- C5 counterexample: a truth label image that is all foreground (one
instance covering the image) compared against an identical predicted
input at instance level scores 0, not 1: with no background value the
code's histogram slicing discards the only instance. -/
theorem c5_counterexample : iou_metric (1/2) oneImg oneImg true ≠ 1 := by
  have hmask : maskOf (1/2) oneImg = oneImg := by
    funext i j
    unfold maskOf oneImg
    norm_num
  have hlab : labelI oneImg = oneImg := by decide
  have hlq : labelQ (1/2) oneImg = oneImg := by
    unfold labelQ
    rw [hmask, hlab]
  have hu : uniqueCount oneImg = 1 := by decide
  have h1 : iou_metric (1/2) oneImg oneImg true =
      iou_core oneImg (labelQ (1/2) oneImg) := rfl
  rw [h1, hlq, iou_core_zero_of_single hu hu]
  norm_num

/-- A 1 by 4 canonical two-instance truth label image. -/
def truthImg : Img 1 4 := fun _ j => [0, 1, 0, 2].getD j.val 0

/-- The thresholded foreground of truthImg at threshold 1/2. -/
def maskT4 : Img 1 4 := fun _ j => [0, 1, 0, 1].getD j.val 0

/-- Witness for the amended C5 theorem at a concrete two-instance truth. -/
theorem c5_selfmatch_witness :
    labelQ (1/2) truthImg = truthImg ∧
    (∃ p : Pix 1 4, truthImg p.1 p.2 = 0) ∧
    (∃ p : Pix 1 4, truthImg p.1 p.2 ≠ 0) ∧
    iou_metric (1/2) truthImg truthImg true = 1 := by
  have hmask : maskOf (1/2) truthImg = maskT4 := by
    funext i j
    fin_cases j <;> simp [maskOf, truthImg, maskT4] <;> norm_num
  have hlab : labelI maskT4 = truthImg := by decide
  have hfix : labelQ (1/2) truthImg = truthImg := by
    unfold labelQ
    rw [hmask, hlab]
  exact ⟨hfix, by decide, by decide,
    c5_selfmatch (1/2) truthImg hfix (by decide) (by decide)⟩

/-! ### Watershed jitter (`seg_ws`, helper.py line 216)

seg_ws perturbs the distance transform with
noise = np.random.randn(shape) * 0.1 before peak detection; randn draws
independent standard normal values, so the per-pixel law of the added
jitter is the image of the standard Gaussian under scaling by 0.1. -/

/-- The scaling the source applies to the standard normal draw. -/
noncomputable def jitterScale (x : ℝ) : ℝ := x * (1/10)

/-- The per-pixel probability law of the jitter added by seg_ws. -/
noncomputable def noiseLaw : MeasureTheory.Measure ℝ :=
  (ProbabilityTheory.gaussianReal 0 1).map jitterScale

/-- The law asserted by the claim: uniform of amplitude 0.1, i.e. the
normalized restriction of Lebesgue measure to [-0.1, 0.1]. -/
noncomputable def uniformJitterLaw : MeasureTheory.Measure ℝ :=
  (5 : ENNReal) • (MeasureTheory.volume.restrict (Set.Icc (-(1/10)) (1/10)))

theorem noiseLaw_eq_gaussian :
    noiseLaw = ProbabilityTheory.gaussianReal 0 (1/100) := by
  unfold noiseLaw jitterScale
  rw [ProbabilityTheory.gaussianReal_map_mul_const (1/10)]
  have hμ : (1/10 : ℝ) * 0 = 0 := by ring
  have hv : (⟨(1/10 : ℝ)^2, sq_nonneg _⟩ : NNReal) * 1 = 1/100 := by
    rw [mul_one]
    apply NNReal.coe_injective
    rw [NNReal.coe_div, NNReal.coe_one, NNReal.coe_ofNat]
    norm_num
  rw [hμ, hv]

/-- C8 amended: the per-pixel jitter seg_ws adds to the distance field
before local-maximum detection is 0.1 times a standard normal draw —
Gaussian with mean 0 and variance 0.01 — freshly supplied by the
ambient random source. -/
theorem c8_jitter_gaussian :
    noiseLaw = ProbabilityTheory.gaussianReal 0 (1/100) :=
  noiseLaw_eq_gaussian

/-- C8 counterexample: the jitter is not uniformly distributed with
amplitude 0.1 — its law puts positive mass above 0.1 (the Gaussian has
unbounded support) while the claimed uniform law puts none there. -/
theorem c8_counterexample : noiseLaw ≠ uniformJitterLaw := by
  intro hc
  have hU : uniformJitterLaw (Set.Ioi (1/10)) = 0 := by
    unfold uniformJitterLaw
    rw [MeasureTheory.Measure.smul_apply,
      MeasureTheory.Measure.restrict_apply measurableSet_Ioi]
    have hempty : Set.Ioi (1/10 : ℝ) ∩ Set.Icc (-(1/10)) (1/10) = ∅ := by
      ext x
      simp only [Set.mem_inter_iff, Set.mem_Ioi, Set.mem_Icc,
        Set.mem_empty_iff_false, iff_false, not_and]
      intro h1 h2
      intro h3
      linarith
    rw [hempty]
    simp
  have hG : noiseLaw (Set.Ioi (1/10)) ≠ 0 := by
    rw [noiseLaw_eq_gaussian]
    intro h0
    have habs := ProbabilityTheory.gaussianReal_absolutelyContinuous' 0
      (show (1/100 : NNReal) ≠ 0 from by norm_num)
    have hv0 : MeasureTheory.volume (Set.Ioi (1/10 : ℝ)) = 0 := habs h0
    rw [Real.volume_Ioi] at hv0
    exact (by norm_num : (⊤ : ENNReal) ≠ 0) hv0
  apply hG
  rw [hc]
  exact hU
